import Mathlib

/-!
# Bloom filter: hash, probing primitives, policy, builder, reader

A shallow embedding of `hash.go` and `bloom.go`.

Conventions of the embedding
* `uint32` values are `Nat`, every arithmetic result that can leave the range is
  reduced with `u32` (`% 2^32`).
* `[]byte` is `List Nat`; every byte the code writes is below 256.
* Go `int` is `Int` (lengths and loop counters, which are never negative, are `Nat`);
  the only `int` arithmetic that can wrap, `numEntries * bitsPerKey`, is reduced modulo
  `2^32` right away, which absorbs a 64-bit wrap.
* A run-time panic (index out of range, modulus by zero, nil receiver) is `none`.
* `float64(bitsPerKey) * 0.69` is computed exactly: binary64 values are integers scaled by
  a power of two and the one rounding of the product is `roundTo53`.
-/

namespace Bloom

/-! ## Machine arithmetic -/

/-- Truncation to an unsigned 32-bit value. -/
def u32 (n : Nat) : Nat := n % 2 ^ 32

/-- Go conversion `uint32(i)` of an `int`. -/
def u32OfInt (i : Int) : Nat := (i % 2 ^ 32).toNat

/-- Go conversion `byte(i)` of an `int`. -/
def byteOfInt (i : Int) : Nat := (i % 256).toNat

/-- Decoding `binary.BigEndian.Uint32(b)`; panics when `b` has fewer than 4 bytes. -/
def bigEndianUint32 : List Nat → Option Nat
  | b0 :: b1 :: b2 :: b3 :: _ => some (b3 ||| b2 <<< 8 ||| b1 <<< 16 ||| b0 <<< 24)
  | _ => none

/-- The four bytes `binary.BigEndian.PutUint32` stores for `v`. -/
def bigEndianBytes (v : Nat) : List Nat :=
  [(v >>> 24) % 256, (v >>> 16) % 256, (v >>> 8) % 256, v % 256]

/-- Overwrite `dst` from index `pos` on with the given bytes, element by element. -/
def writeAt : List Nat → Nat → List Nat → List Nat
  | dst, _, [] => dst
  | dst, pos, b :: bs => writeAt (dst.set pos b) (pos + 1) bs

/-- Encoding `binary.BigEndian.PutUint32(data[pos:], v)`; panics when fewer than 4 bytes
follow `pos`. -/
def putUint32At (data : List Nat) (pos : Nat) (v : Nat) : Option (List Nat) :=
  if pos + 4 ≤ data.length then some (writeAt data pos (bigEndianBytes v)) else none

/-! ## hash.go -/

def hashm : Nat := 0xc6a4a793
def hashr : Nat := 24

/-- The `for cur + 4 <= len(data)` loop of `Hash`: consumes whole 4-byte chunks and returns
the running hash together with the unread tail `data[cur:]`. -/
def hashChunks : Nat → List Nat → Nat × List Nat
  | h, b0 :: b1 :: b2 :: b3 :: rest =>
    let w := b3 ||| b2 <<< 8 ||| b1 <<< 16 ||| b0 <<< 24
    let h1 := u32 (h + w)
    let h2 := u32 (h1 * hashm)
    hashChunks (h2 ^^^ (h2 >>> 16)) rest
  | h, rest => (h, rest)

def Hash (data : List Nat) (seed : Nat) : Nat :=
  let h0 := seed ^^^ u32 (u32 data.length * hashm)
  let (h, tail) := hashChunks h0 data
  let remain := tail.length
  let (h, remain) :=
    if remain = 3 then (u32 (h + u32 (tail.getD 2 0 <<< 16)), remain - 1) else (h, remain)
  let (h, remain) :=
    if remain = 2 then (u32 (h + u32 (tail.getD 1 0 <<< 8)), remain - 1) else (h, remain)
  if remain = 1 then
    let h1 := u32 (h + tail.getD 0 0)
    let h2 := u32 (h1 * hashm)
    h2 ^^^ (h2 >>> hashr)
  else h

/-! ## bloom.go: probing primitives -/

def CacheLineSize : Nat := 64

/-- The constant `int(math.Log2(CacheLineSize))`, which is 6. -/
def Log2CacheLineSize : Nat := 6

/-- The probe step `(h >> 17) | (h << 15)`. -/
def probeDelta (h : Nat) : Nat := (h >>> 17) ||| u32 (h <<< 15)

/-- The in-line bit mask `uint32(1 << uint(log2CacheLineBits)) - 1`. -/
def lineMask (log2CacheLineBits : Nat) : Nat :=
  u32 (u32 (1 <<< log2CacheLineBits) + (2 ^ 32 - 1))

/-- Loop of `LegacyNoLocalityBloomImplAddHash`, `n` iterations left. -/
def noLocalityAddLoop (totalBits delta : Nat) : Nat → Nat → List Nat → Option (List Nat)
  | 0, _, data => some data
  | n + 1, h, data =>
    if totalBits = 0 then none
    else
      let bitpos := h % totalBits
      match data[bitpos / 8]? with
      | none => none
      | some b =>
        noLocalityAddLoop totalBits delta n (u32 (h + delta))
          (data.set (bitpos / 8) (b ||| 1 <<< (bitpos % 8)))

def LegacyNoLocalityBloomImplAddHash (h totalBits : Nat) (numProbes : Int) (data : List Nat) :
    Option (List Nat) :=
  noLocalityAddLoop totalBits (probeDelta h) numProbes.toNat h data

/-- Loop of `LegacyNoLocalityBloomImplHashMayMatch`, `n` iterations left. -/
def noLocalityMatchLoop (totalBits delta : Nat) (data : List Nat) : Nat → Nat → Option Bool
  | 0, _ => some true
  | n + 1, h =>
    if totalBits = 0 then none
    else
      let bitpos := h % totalBits
      match data[bitpos / 8]? with
      | none => none
      | some b =>
        if b &&& 1 <<< (bitpos % 8) = 0 then some false
        else noLocalityMatchLoop totalBits delta data n (u32 (h + delta))

def LegacyNoLocalityBloomImplHashMayMatch (h totalBits : Nat) (numProbes : Int)
    (data : List Nat) : Option Bool :=
  noLocalityMatchLoop totalBits (probeDelta h) data numProbes.toNat h

/-- Loop of `LegacyLocalityBloomImplAddHash`, `n` iterations left. -/
def localityAddLoop (offset mask delta : Nat) : Nat → Nat → List Nat → Option (List Nat)
  | 0, _, data => some data
  | n + 1, h, data =>
    let bitpos := h &&& mask
    let idx := u32 (offset + bitpos / 8)
    match data[idx]? with
    | none => none
    | some b =>
      localityAddLoop offset mask delta n (u32 (h + delta))
        (data.set idx (b ||| 1 <<< (bitpos % 8)))

def LegacyLocalityBloomImplAddHash (h numLines : Nat) (numProbes : Int)
    (log2CacheLineBytes : Nat) (data : List Nat) : Option (List Nat) :=
  let log2CacheLineBits := log2CacheLineBytes + 3
  if numLines = 0 then none
  else
    let offset := u32 ((h % numLines) <<< log2CacheLineBytes)
    localityAddLoop offset (lineMask log2CacheLineBits) (probeDelta h) numProbes.toNat h data

/-- Loop of `LegacyLocalityBloomImplHashMayMatch`, `n` iterations left. -/
def localityMatchLoop (mask delta : Nat) (data : List Nat) : Nat → Nat → Option Bool
  | 0, _ => some true
  | n + 1, h =>
    let bitpos := h &&& mask
    match data[bitpos / 8]? with
    | none => none
    | some b =>
      if b &&& 1 <<< (bitpos % 8) = 0 then some false
      else localityMatchLoop mask delta data n (u32 (h + delta))

def LegacyLocalityBloomImplHashMayMatch (h : Nat) (numProbes : Int)
    (log2CacheLineBytes : Nat) (data : List Nat) : Option Bool :=
  let log2CacheLineBits := log2CacheLineBytes + 3
  localityMatchLoop (lineMask log2CacheLineBits) (probeDelta h) data numProbes.toNat h

def BloomHash (key : List Nat) : Nat := Hash key 0xbc9f1d34

/-! ## bloom.go: filter policy -/

/-- Number of binary digits of `n`; the first argument bounds the search and `n` itself is
always enough. -/
def bitLength : Nat → Nat → Nat
  | 0, _ => 0
  | fuel + 1, n => if n = 0 then 0 else bitLength fuel (n / 2) + 1

/-- Rounding of a natural number to 53 significant binary digits, ties to even: the
rounding of IEEE-754 binary64 (no overflow or underflow occurs in the range used). -/
def roundTo53 (n : Nat) : Nat :=
  let len := bitLength n n
  if len ≤ 53 then n
  else
    let s := len - 53
    let q := n >>> s
    let r := n % 2 ^ s
    let half := 2 ^ (s - 1)
    let q1 := if half < r ∨ (r = half ∧ q % 2 = 1) then q + 1 else q
    q1 * 2 ^ s

/-- The binary64 constant `0.69` is `float69Mantissa / 2^53`. -/
def float69Mantissa : Nat := 6214967485771284

/-- The expression `int(float64(bitsPerKey) * 0.69)`: conversion to binary64, one rounded
binary64 multiplication, truncation toward zero. -/
def probesOfBitsPerKey (bitsPerKey : Int) : Int :=
  let magnitude : Nat := roundTo53 (roundTo53 bitsPerKey.natAbs * float69Mantissa) / 2 ^ 53
  if bitsPerKey < 0 then -(magnitude : Int) else (magnitude : Int)

structure BloomFilterPolicy where
  bitsPerKey : Int
  numProbes : Int
  hash : List Nat → Nat

def NewBloomFilterPolicy (bitsPerKey : Int) : BloomFilterPolicy :=
  let numProbes := probesOfBitsPerKey bitsPerKey
  let numProbes := if numProbes < 1 then 1 else numProbes
  let numProbes := if numProbes > 30 then 30 else numProbes
  { bitsPerKey := bitsPerKey, numProbes := numProbes, hash := BloomHash }

/-- The legacy check `(p *BloomFilterPolicy) KeyMayMatch(key, filter)`. -/
def BloomFilterPolicy.KeyMayMatch (p : BloomFilterPolicy) (key filter : List Nat) :
    Option Bool :=
  let l := filter.length
  if l < 2 ∨ l > 0xffffffff then some false
  else
    let bits := u32 (u32 (l - 1) * 8)
    match filter[l - 1]? with
    | none => none
    | some last =>
      if (last : Int) > 30 then some true
      else LegacyNoLocalityBloomImplHashMayMatch (p.hash key) bits (last : Int) filter

/-! ## bloom.go: full filter builder -/

structure FullFilterBitsBuilder where
  bitsPerKey : Int
  numProbes : Int
  hashEntries : List Nat

/-- Constructor; `none` is the `nil` builder returned for `bitsPerKey <= 0`. -/
def NewFullFilterBitsBuilder (bitsPerKey numProbes : Int) : Option FullFilterBitsBuilder :=
  if bitsPerKey ≤ 0 then none
  else some { bitsPerKey := bitsPerKey, numProbes := numProbes, hashEntries := [] }

def BloomFilterPolicy.GetFilterBitsBuilder (p : BloomFilterPolicy) :
    Option FullFilterBitsBuilder :=
  NewFullFilterBitsBuilder p.bitsPerKey p.numProbes

def FullFilterBitsBuilder.AddKey (b : FullFilterBitsBuilder) (key : List Nat) :
    FullFilterBitsBuilder :=
  let hash := BloomHash key
  if b.hashEntries.length = 0 ∨ some hash ≠ b.hashEntries.getLast? then
    { b with hashEntries := b.hashEntries ++ [hash] }
  else b

def FullFilterBitsBuilder.getTotalBitsForLocality (_b : FullFilterBitsBuilder)
    (totalBits : Nat) : Nat :=
  let numLines := u32 (totalBits + CacheLineSize * 8 - 1) / (CacheLineSize * 8)
  let numLines := if numLines % 2 = 0 then u32 (numLines + 1) else numLines
  u32 (u32 (numLines * CacheLineSize) * 8)

/-- Returns (space bytes, total cache line bits, number of cache lines). -/
def FullFilterBitsBuilder.CalculateSpace (b : FullFilterBitsBuilder) (numEntries : Int) :
    Nat × Nat × Nat :=
  let (totalBits, numLines) :=
    if numEntries > 0 then
      let totalBits := b.getTotalBitsForLocality (u32OfInt (numEntries * b.bitsPerKey))
      (totalBits, totalBits / (CacheLineSize * 8))
    else (0, 0)
  (u32 (totalBits / 8 + 5), totalBits, numLines)

def FullFilterBitsBuilder.reserveSpace (b : FullFilterBitsBuilder) (numEntries : Int) :
    List Nat × Nat × Nat :=
  let (sz, totalBits, numLines) := b.CalculateSpace numEntries
  (List.replicate sz 0, totalBits, numLines)

def FullFilterBitsBuilder.AddHash (b : FullFilterBitsBuilder) (h numLines _totalBits : Nat)
    (data : List Nat) : Option (List Nat) :=
  LegacyLocalityBloomImplAddHash h numLines b.numProbes Log2CacheLineSize data

/-- The loop `for _, h := range b.hashEntries` of `Finish`. -/
def FullFilterBitsBuilder.addHashes (b : FullFilterBitsBuilder) (numLines totalBits : Nat) :
    List Nat → List Nat → Option (List Nat)
  | [], data => some data
  | h :: hs, data =>
    match b.AddHash h numLines totalBits data with
    | none => none
    | some data1 => b.addHashes numLines totalBits hs data1

/-- Returns the blob together with the builder after the call (hash list cleared). -/
def FullFilterBitsBuilder.Finish (b : FullFilterBitsBuilder) :
    Option (List Nat × FullFilterBitsBuilder) :=
  let (data, totalBits, numLines) := b.reserveSpace b.hashEntries.length
  let filled :=
    if totalBits > 0 ∧ numLines > 0 then b.addHashes numLines totalBits b.hashEntries data
    else some data
  match filled with
  | none => none
  | some data1 =>
    if totalBits / 8 < data1.length then
      let data2 := data1.set (totalBits / 8) (byteOfInt b.numProbes)
      match putUint32At data2 (u32 (totalBits / 8 + 1)) numLines with
      | none => none
      | some data3 => some (data3, { b with hashEntries := [] })
    else none

/-! ## bloom.go: full filter reader -/

structure FullFilterBitsReader where
  data : List Nat
  numProbes : Int
  numLines : Nat
  log2CacheLineSize : Nat

/-- The search loop of `NewFullFilterBitsReader` over the candidate exponent, for
`x = uint32(l - 5)`. The result is the final exponent and whether the line count was
matched (`false`: the shifted value reached 0 first). `none` only when the iteration bound
is used up. -/
def recoverLog2 (x numLines : Nat) : Nat → Nat → Option (Nat × Bool)
  | 0, _ => none
  | fuel + 1, log2CacheLineSize =>
    let tmp := x >>> log2CacheLineSize
    if tmp = 0 then some (log2CacheLineSize, false)
    else if tmp = numLines then some (log2CacheLineSize, true)
    else recoverLog2 x numLines fuel (log2CacheLineSize + 1)

/-- Constructor; `none` is the `nil` reader returned for an empty blob. A 32-bit value
shifted right 32 times is 0, so 33 rounds of the search loop always suffice
(`recoverLog2_spec`). -/
def NewFullFilterBitsReader (data : List Nat) : Option FullFilterBitsReader :=
  if data.length = 0 then none
  else
    let l := data.length
    let trailer :=
      if l > 5 then
        match data[l - 5]?, bigEndianUint32 (data.drop (l - 4)) with
        | some p, some n => some ((p : Int), n)
        | _, _ => none
      else some ((0 : Int), 0)
    match trailer with
    | none => none
    | some (numProbes, numLines) =>
      if numLines > 0 ∧ u32 (l - 5) % numLines ≠ 0 then
        some { data := data, numProbes := 0, numLines := 0, log2CacheLineSize := 0 }
      else if numLines > 0 then
        match recoverLog2 (u32 (l - 5)) numLines 33 0 with
        | none => none
        | some (log2CacheLineSize, true) =>
          some { data := data, numProbes := numProbes, numLines := numLines,
                 log2CacheLineSize := log2CacheLineSize }
        | some (log2CacheLineSize, false) =>
          some { data := data, numProbes := 0, numLines := 0,
                 log2CacheLineSize := log2CacheLineSize }
      else
        some { data := data, numProbes := numProbes, numLines := numLines,
               log2CacheLineSize := 0 }

def BloomFilterPolicy.GetFilterBitsReader (_p : BloomFilterPolicy) (contents : List Nat) :
    Option FullFilterBitsReader :=
  NewFullFilterBitsReader contents

def FullFilterBitsReader.KeyMayMatch (r : FullFilterBitsReader) (key : List Nat) :
    Option Bool :=
  if r.data.length ≤ 5 then some false
  else if r.numProbes = 0 ∨ r.numLines = 0 then some true
  else
    let hash := BloomHash key
    let offset := u32 ((hash % r.numLines) <<< r.log2CacheLineSize)
    if offset ≤ r.data.length then
      LegacyLocalityBloomImplHashMayMatch hash r.numProbes r.log2CacheLineSize
        (r.data.drop offset)
    else none

/-- The loop `for i := range keys` of `KeysMayMatch`; `i` is the index of the first key of
the remaining list. -/
def FullFilterBitsReader.keysLoop (r : FullFilterBitsReader) :
    List (List Nat) → Nat → List Bool → Option (List Bool)
  | [], _, mayMatches => some mayMatches
  | key :: rest, i, mayMatches =>
    let hash := BloomHash key
    let offset := u32 ((hash % r.numLines) <<< r.log2CacheLineSize)
    if offset ≤ r.data.length then
      match LegacyLocalityBloomImplHashMayMatch hash r.numProbes r.log2CacheLineSize
          (r.data.drop offset) with
      | none => none
      | some true => r.keysLoop rest (i + 1) mayMatches
      | some false => r.keysLoop rest (i + 1) (mayMatches.set i false)
    else none

def FullFilterBitsReader.KeysMayMatch (r : FullFilterBitsReader) (keys : List (List Nat)) :
    Option (List Bool) :=
  let mayMatches := List.replicate keys.length false
  if r.data.length ≤ 5 then some mayMatches
  else
    let mayMatches := List.replicate keys.length true
    if r.numProbes = 0 ∨ r.numLines = 0 then some mayMatches
    else r.keysLoop keys 0 mayMatches

/-! ## Predicates used in the statements and proofs -/

/-- Within the first `m` bytes, every byte of `D` is present in `E` with at least the same
bits set. -/
def BitsLe (m : Nat) (D E : List Nat) : Prop :=
  ∀ j, j < m → ∀ b, D[j]? = some b →
    ∃ c, E[j]? = some c ∧ ∀ k, b.testBit k = true → c.testBit k = true

/-- The probe-count rule in the words of the spec, `clamp(round(bitsPerKey * 0.69), 1, 30)`,
with `bitsPerKey * 0.69` read as the rational `69 * bitsPerKey / 100` and rounding to the
nearest integer computed as `floor(x + 1/2) = floor((138 * bitsPerKey + 100) / 200)`. A tie
needs `bitsPerKey` to be an odd multiple of 50, where the clamp gives the same value
whichever way the tie is broken. -/
def specNumProbes (bitsPerKey : Int) : Int :=
  max 1 (min 30 ((138 * bitsPerKey + 100) / 200))

/-! ## The hash recipe in the words of the spec -/

/-- The complete 4-byte chunk number `i` of `data`, read as a big-endian word. -/
def specWord (data : List Nat) (i : Nat) : Nat :=
  data.getD (4 * i) 0 * 2 ^ 24 + data.getD (4 * i + 1) 0 * 2 ^ 16
    + data.getD (4 * i + 2) 0 * 2 ^ 8 + data.getD (4 * i + 3) 0

/-- The step for one word, `h = (h + w) * M; h = h xor (h >> 16)`, modulo `2^32`. -/
def specMix (h w : Nat) : Nat :=
  let t := (h + w) * 0xc6a4a793 % 2 ^ 32
  t ^^^ (t >>> 16)

/-- The recipe of section 4.1 of the spec, in arithmetic modulo `2^32` with
`M = 0xc6a4a793`: start from `seed xor (len(data) * M)`, apply `specMix` to every complete
4-byte chunk in order, then add the 1 to 3 trailing bytes weighted by position (third byte
`<< 16`, second byte `<< 8`, first byte unshifted) and, exactly when a trailing byte
exists, do `h = h * M; h = h xor (h >> 24)`. -/
def specHash (data : List Nat) (seed : Nat) : Nat :=
  let n := data.length
  let h0 := seed ^^^ (n * 0xc6a4a793 % 2 ^ 32)
  let h1 := (List.range (n / 4)).foldl (fun h i => specMix h (specWord data i)) h0
  let trailing := n % 4
  let first := 4 * (n / 4)
  if trailing = 0 then h1
  else
    let third := if 3 ≤ trailing then data.getD (first + 2) 0 * 2 ^ 16 else 0
    let second := if 2 ≤ trailing then data.getD (first + 1) 0 * 2 ^ 8 else 0
    let h2 := (h1 + third + second + data.getD first 0) * 0xc6a4a793 % 2 ^ 32
    h2 ^^^ (h2 >>> 24)

/-! ## Probe positions -/

/-- The running hash at step `j` of a probe loop started at `h`: `h + j * delta(h)` modulo
`2^32`. -/
def probeHash (h j : Nat) : Nat := u32 (h + j * probeDelta h)

/-- Bit position of probe `j` of the hash `h` inside its 512-bit line: the low 9 bits of the
running hash. -/
def probeBit (h j : Nat) : Nat := probeHash h j &&& 511

/-- Bit `t` of byte `i` of `data` is set. -/
def BitSet (data : List Nat) (i t : Nat) : Prop :=
  ∃ b, data[i]? = some b ∧ b.testBit t = true

/-! ## Arithmetic facts -/

theorem u32_lt (n : Nat) : u32 n < 2 ^ 32 := Nat.mod_lt _ (by norm_num)

theorem u32_of_lt {n : Nat} (h : n < 2 ^ 32) : u32 n = n := Nat.mod_eq_of_lt h

theorem u32OfInt_lt (i : Int) : u32OfInt i < 2 ^ 32 := by
  unfold u32OfInt
  have h1 : (0 : Int) ≤ i % 2 ^ 32 := Int.emod_nonneg _ (by norm_num)
  have h2 : i % 2 ^ 32 < 2 ^ 32 := Int.emod_lt_of_pos _ (by norm_num)
  omega

/-- Shape of what `getTotalBitsForLocality` returns on a 32-bit argument: an odd number
of 512-bit lines, without wrap-around. -/
theorem getTotalBitsForLocality_lines (b : FullFilterBitsBuilder) (x : Nat) (hx : x < 2 ^ 32) :
    ∃ lines, lines % 2 = 1 ∧ lines ≤ 8388607 ∧
      b.getTotalBitsForLocality x = lines * 512 := by
  unfold FullFilterBitsBuilder.getTotalBitsForLocality u32 CacheLineSize
  simp only []
  split_ifs with h
  · refine ⟨(x + 64 * 8 - 1) % 2 ^ 32 / (64 * 8) + 1, ?_, ?_, ?_⟩ <;> omega
  · refine ⟨(x + 64 * 8 - 1) % 2 ^ 32 / (64 * 8), ?_, ?_, ?_⟩ <;> omega

theorem CalculateSpace_zero (b : FullFilterBitsBuilder) : b.CalculateSpace 0 = (5, 0, 0) := by
  simp [FullFilterBitsBuilder.CalculateSpace, u32]

theorem CalculateSpace_pos (b : FullFilterBitsBuilder) (n : Int) (hn : 0 < n) :
    ∃ lines, lines % 2 = 1 ∧ lines ≤ 8388607 ∧
      b.CalculateSpace n = (lines * 64 + 5, lines * 512, lines) := by
  obtain ⟨lines, h1, h2, h3⟩ :=
    getTotalBitsForLocality_lines b (u32OfInt (n * b.bitsPerKey)) (u32OfInt_lt _)
  refine ⟨lines, h1, h2, ?_⟩
  simp only [FullFilterBitsBuilder.CalculateSpace, gt_iff_lt, hn, if_true, h3, CacheLineSize, u32]
  refine Prod.ext ?_ (Prod.ext rfl ?_) <;> simp only [] <;> omega

/-! ## Bits and bytes -/

theorem bit_test_iff (b k : Nat) : b &&& 1 <<< k ≠ 0 ↔ b.testBit k = true := by
  rw [Nat.one_shiftLeft]
  constructor
  · intro h
    obtain ⟨i, hi⟩ := Nat.ne_zero_implies_bit_true h
    simp only [Nat.testBit_and, Nat.testBit_two_pow, Bool.and_eq_true, decide_eq_true_eq] at hi
    obtain ⟨h1, h2⟩ := hi
    subst h2
    exact h1
  · intro h heq
    have h2 : (b &&& 2 ^ k).testBit k = true := by
      simp [Nat.testBit_and, Nat.testBit_two_pow_self, h]
    rw [heq] at h2
    simp at h2

theorem bigEndian_or_eq_add (b0 b1 b2 b3 : Nat) (h1 : b1 < 256)
    (h2 : b2 < 256) (h3 : b3 < 256) :
    b3 ||| b2 <<< 8 ||| b1 <<< 16 ||| b0 <<< 24
      = b3 + b2 * 2 ^ 8 + b1 * 2 ^ 16 + b0 * 2 ^ 24 := by
  simp only [Nat.shiftLeft_eq]
  rw [Nat.or_comm b3, Nat.mul_comm b2, ← Nat.mul_add_lt_is_or (by omega)]
  rw [Nat.or_comm _ (b1 * 2 ^ 16), Nat.mul_comm b1, ← Nat.mul_add_lt_is_or (by omega)]
  rw [Nat.or_comm _ (b0 * 2 ^ 24), Nat.mul_comm b0, ← Nat.mul_add_lt_is_or (by omega)]
  omega

theorem bigEndianUint32_bigEndianBytes (v : Nat) (hv : v < 2 ^ 32) :
    bigEndianUint32 (bigEndianBytes v) = some v := by
  simp only [bigEndianBytes, bigEndianUint32, Option.some.injEq]
  rw [bigEndian_or_eq_add _ _ _ _ (Nat.mod_lt _ (by norm_num)) (Nat.mod_lt _ (by norm_num))
    (Nat.mod_lt _ (by norm_num))]
  simp only [Nat.shiftRight_eq_div_pow]
  omega

theorem lineMask_nine : lineMask 9 = 511 := by decide

/-! ## Writing the trailer -/

theorem writeAt_length (bs : List Nat) : ∀ (d : List Nat) (pos : Nat),
    (writeAt d pos bs).length = d.length := by
  induction bs with
  | nil => intro d pos; rfl
  | cons b bs ih => intro d pos; simp [writeAt, ih]

theorem writeAt_getElem?_lt (bs : List Nat) : ∀ (d : List Nat) (pos j : Nat), j < pos →
    (writeAt d pos bs)[j]? = d[j]? := by
  induction bs with
  | nil => intro d pos j _; rfl
  | cons b bs ih =>
    intro d pos j hj
    simp only [writeAt]
    rw [ih _ _ _ (by omega), List.getElem?_set_ne (by omega)]

theorem writeAt_drop (bs : List Nat) : ∀ (d : List Nat) (pos : Nat),
    pos + bs.length = d.length → (writeAt d pos bs).drop pos = bs := by
  induction bs with
  | nil =>
    intro d pos h
    simp only [writeAt]
    exact List.drop_eq_nil_of_le (by simp at h; omega)
  | cons b bs ih =>
    intro d pos h
    simp only [List.length_cons] at h
    simp only [writeAt]
    have hlen : pos < (writeAt (d.set pos b) (pos + 1) bs).length := by
      rw [writeAt_length, List.length_set]; omega
    have hget : (writeAt (d.set pos b) (pos + 1) bs)[pos]? = some b := by
      rw [writeAt_getElem?_lt _ _ _ _ (by omega), List.getElem?_set_eq_of_lt]
      omega
    rw [List.drop_eq_getElem_cons hlen, ih _ _ (by rw [List.length_set]; omega)]
    rw [List.getElem?_eq_getElem hlen] at hget
    simp only [Option.some.injEq] at hget
    rw [hget]

/-! ## Monotonicity of the bit vector -/

theorem BitsLe.refl (m : Nat) (D : List Nat) : BitsLe m D D :=
  fun _ _ b hb => ⟨b, hb, fun _ h => h⟩

theorem BitsLe.trans {m : Nat} {D E F : List Nat} (h1 : BitsLe m D E) (h2 : BitsLe m E F) :
    BitsLe m D F := by
  intro j hj b hb
  obtain ⟨c, hc, hbc⟩ := h1 j hj b hb
  obtain ⟨d, hd, hcd⟩ := h2 j hj c hc
  exact ⟨d, hd, fun k hk => hcd k (hbc k hk)⟩

theorem BitsLe.drop {m w off : Nat} {D E : List Nat} (h : BitsLe m D E) (hw : off + w ≤ m) :
    BitsLe w (D.drop off) (E.drop off) := by
  intro j hj b hb
  rw [List.getElem?_drop] at hb ⊢
  exact h (off + j) (by omega) b hb

theorem BitsLe.set_or (m : Nat) (D : List Nat) (i b x : Nat) (hb : D[i]? = some b) :
    BitsLe m D (D.set i (b ||| x)) := by
  intro j _ c hc
  by_cases hij : i = j
  · subst hij
    have hi : i < D.length := by
      rcases Nat.lt_or_ge i D.length with h | h
      · exact h
      · rw [List.getElem?_eq_none h] at hb; cases hb
    rw [hb] at hc
    cases hc
    refine ⟨b ||| x, List.getElem?_set_eq_of_lt _ hi, ?_⟩
    intro k hk
    simp [Nat.testBit_or, hk]
  · exact ⟨c, by rw [List.getElem?_set_ne hij]; exact hc, fun _ h => h⟩

/-- A match found in `D` is still found when bits are added inside the probed window. -/
theorem localityMatchLoop_mono (mask delta : Nat) (D E : List Nat)
    (hle : BitsLe (mask / 8 + 1) D E) : ∀ (n h : Nat),
    localityMatchLoop mask delta D n h = some true →
    localityMatchLoop mask delta E n h = some true := by
  intro n
  induction n with
  | zero => intro h _; rfl
  | succ n ih =>
    intro h hD
    simp only [localityMatchLoop] at hD ⊢
    have hidx : (h &&& mask) / 8 < mask / 8 + 1 :=
      Nat.lt_succ_of_le (Nat.div_le_div_right Nat.and_le_right)
    cases hDb : D[(h &&& mask) / 8]? with
    | none => rw [hDb] at hD; cases hD
    | some b =>
      rw [hDb] at hD
      simp only [] at hD
      obtain ⟨c, hc, hbc⟩ := hle _ hidx b hDb
      rw [hc]
      simp only []
      by_cases hz : b &&& 1 <<< ((h &&& mask) % 8) = 0
      · rw [if_pos hz] at hD; cases hD
      · rw [if_neg hz] at hD
        have hcz : c &&& 1 <<< ((h &&& mask) % 8) ≠ 0 :=
          (bit_test_iff _ _).2 (hbc _ ((bit_test_iff _ _).1 hz))
        rw [if_neg hcz]
        exact ih _ hD

/-- The add loop on a buffer that holds the whole probed window: it does not panic, keeps
the length, only adds bits, and afterwards the match loop with the same parameters
succeeds on the window. -/
theorem localityAddLoop_spec (off mask delta : Nat) (h32 : off + mask / 8 < 2 ^ 32) :
    ∀ (n h : Nat) (data : List Nat), off + mask / 8 < data.length →
    ∃ out, localityAddLoop off mask delta n h data = some out ∧ out.length = data.length ∧
      BitsLe data.length data out ∧
      localityMatchLoop mask delta (out.drop off) n h = some true := by
  intro n
  induction n with
  | zero =>
    intro h data _
    exact ⟨data, rfl, rfl, BitsLe.refl _ _, rfl⟩
  | succ n ih =>
    intro h data hlen
    have hbp : (h &&& mask) / 8 ≤ mask / 8 := Nat.div_le_div_right Nat.and_le_right
    have hidx : u32 (off + (h &&& mask) / 8) = off + (h &&& mask) / 8 :=
      u32_of_lt (by omega)
    have hlt : off + (h &&& mask) / 8 < data.length := by omega
    simp only [localityAddLoop, hidx, List.getElem?_eq_getElem hlt]
    obtain ⟨out, h1, h2, h3, h4⟩ := ih (u32 (h + delta))
      (data.set (off + (h &&& mask) / 8)
        (data[off + (h &&& mask) / 8] ||| 1 <<< ((h &&& mask) % 8)))
      (by rw [List.length_set]; exact hlen)
    rw [List.length_set] at h2 h3
    have hstep : BitsLe data.length data
        (data.set (off + (h &&& mask) / 8)
          (data[off + (h &&& mask) / 8] ||| 1 <<< ((h &&& mask) % 8))) :=
      BitsLe.set_or _ _ _ _ _ (List.getElem?_eq_getElem hlt)
    refine ⟨out, h1, h2, hstep.trans h3, ?_⟩
    obtain ⟨c, hc, hbits⟩ := h3 (off + (h &&& mask) / 8) hlt
      (data[off + (h &&& mask) / 8] ||| 1 <<< ((h &&& mask) % 8))
      (List.getElem?_set_eq_of_lt _ hlt)
    have hck : c.testBit ((h &&& mask) % 8) = true := by
      apply hbits
      simp [Nat.testBit_or, Nat.one_shiftLeft, Nat.testBit_two_pow_self]
    simp only [localityMatchLoop, List.getElem?_drop, hc]
    rw [if_neg ((bit_test_iff _ _).2 hck)]
    exact h4

/-! ## The builder -/

theorem addHashes_spec (b : FullFilterBitsBuilder) (lines totalBits : Nat) (hl : 0 < lines)
    (hl2 : lines ≤ 8388607) : ∀ (hs data : List Nat), lines * 64 ≤ data.length →
    ∃ out, b.addHashes lines totalBits hs data = some out ∧ out.length = data.length ∧
      BitsLe data.length data out ∧
      ∀ h ∈ hs, localityMatchLoop 511 (probeDelta h) (out.drop (h % lines * 64))
        b.numProbes.toNat h = some true := by
  intro hs
  induction hs with
  | nil =>
    intro data _
    exact ⟨data, rfl, rfl, BitsLe.refl _ _, by simp⟩
  | cons h hs ih =>
    intro data hlen
    have hmod : h % lines < lines := Nat.mod_lt _ hl
    have hoff : u32 ((h % lines) <<< Log2CacheLineSize) = h % lines * 64 := by
      rw [Log2CacheLineSize, Nat.shiftLeft_eq]
      exact u32_of_lt (by omega)
    obtain ⟨d1, h1, h2, h3, h4⟩ := localityAddLoop_spec (h % lines * 64) 511 (probeDelta h)
      (by omega) b.numProbes.toNat h data (by omega)
    obtain ⟨out, g1, g2, g3, g4⟩ := ih d1 (by omega)
    refine ⟨out, ?_, by omega, h3.trans (h2 ▸ g3), ?_⟩
    · simp only [FullFilterBitsBuilder.addHashes, FullFilterBitsBuilder.AddHash,
        LegacyLocalityBloomImplAddHash, Nat.pos_iff_ne_zero.1 hl, if_false, hoff]
      have hm : lineMask (Log2CacheLineSize + 3) = 511 := lineMask_nine
      rw [hm, h1]
      exact g1
    · intro x hx
      rcases List.mem_cons.1 hx with rfl | hx
      · refine localityMatchLoop_mono 511 _ _ _ ?_ _ _ h4
        exact BitsLe.drop g3 (by omega)
      · exact g4 x hx

theorem Finish_nil (b : FullFilterBitsBuilder) (h : b.hashEntries = []) :
    b.Finish = some ([byteOfInt b.numProbes, 0, 0, 0, 0], { b with hashEntries := [] }) := by
  simp [FullFilterBitsBuilder.Finish, FullFilterBitsBuilder.reserveSpace, h,
    CalculateSpace_zero, putUint32At, u32, writeAt, bigEndianBytes, List.replicate]

theorem Finish_pos (b : FullFilterBitsBuilder) (hne : b.hashEntries ≠ []) :
    ∃ lines blob, lines % 2 = 1 ∧ lines ≤ 8388607 ∧
      b.CalculateSpace b.hashEntries.length = (lines * 64 + 5, lines * 512, lines) ∧
      b.Finish = some (blob, { b with hashEntries := [] }) ∧
      blob.length = lines * 64 + 5 ∧
      blob[lines * 64]? = some (byteOfInt b.numProbes) ∧
      blob.drop (lines * 64 + 1) = bigEndianBytes lines ∧
      ∀ h ∈ b.hashEntries, localityMatchLoop 511 (probeDelta h) (blob.drop (h % lines * 64))
        b.numProbes.toNat h = some true := by
  have hn : (0 : Int) < (b.hashEntries.length : Int) := by
    have := List.length_pos.2 hne
    omega
  obtain ⟨lines, h1, h2, h3⟩ := CalculateSpace_pos b _ hn
  have hl : 0 < lines := by omega
  obtain ⟨d1, g1, g2, g3, g4⟩ := addHashes_spec b lines (lines * 512) hl h2 b.hashEntries
    (List.replicate (lines * 64 + 5) 0) (by simp)
  rw [List.length_replicate] at g2
  have hdiv : lines * 512 / 8 = lines * 64 := by omega
  have hpos : u32 (lines * 64 + 1) = lines * 64 + 1 := u32_of_lt (by omega)
  refine ⟨lines, writeAt (d1.set (lines * 64) (byteOfInt b.numProbes)) (lines * 64 + 1)
    (bigEndianBytes lines), h1, h2, h3, ?_, ?_, ?_, ?_, ?_⟩
  · have hc1 : 0 < lines * 512 ∧ 0 < lines := ⟨by omega, hl⟩
    have hc2 : lines * 64 < d1.length := by omega
    have hc3 : lines * 64 + 1 + 4 ≤ d1.length := by omega
    simp only [FullFilterBitsBuilder.Finish, FullFilterBitsBuilder.reserveSpace, h3, gt_iff_lt,
      hc1, and_self, if_true, g1, hdiv, hc2, hpos, putUint32At, List.length_set, hc3]
  · rw [writeAt_length, List.length_set, g2]
  · rw [writeAt_getElem?_lt _ _ _ _ (by omega), List.getElem?_set_eq_of_lt _ (by omega)]
  · exact writeAt_drop _ _ _ (by rw [List.length_set, g2]; rfl)
  · intro h hh
    have hmod : h % lines < lines := Nat.mod_lt _ hl
    refine localityMatchLoop_mono 511 _ _ _ ?_ _ _ (g4 h hh)
    intro j hj c hc
    rw [List.getElem?_drop] at hc ⊢
    refine ⟨c, ?_, fun _ hk => hk⟩
    rw [writeAt_getElem?_lt _ _ _ _ (by omega), List.getElem?_set_ne (by omega)]
    exact hc

/-! ## Keys accumulated by the builder -/

theorem foldl_AddKey_spec (ks : List (List Nat)) : ∀ b : FullFilterBitsBuilder,
    (ks.foldl FullFilterBitsBuilder.AddKey b).bitsPerKey = b.bitsPerKey ∧
    (ks.foldl FullFilterBitsBuilder.AddKey b).numProbes = b.numProbes ∧
    (∀ h ∈ b.hashEntries, h ∈ (ks.foldl FullFilterBitsBuilder.AddKey b).hashEntries) ∧
    ∀ k ∈ ks, BloomHash k ∈ (ks.foldl FullFilterBitsBuilder.AddKey b).hashEntries := by
  induction ks with
  | nil => intro b; simp
  | cons k ks ih =>
    intro b
    obtain ⟨h1, h2, h3, h4⟩ := ih (b.AddKey k)
    have hself : BloomHash k ∈ (b.AddKey k).hashEntries := by
      unfold FullFilterBitsBuilder.AddKey
      simp only []
      split_ifs with hc
      · simp
      · have hlast : b.hashEntries.getLast? = some (BloomHash k) := by
          by_contra hne
          exact hc (Or.inr (fun heq => hne heq.symm))
        exact List.mem_of_getLast?_eq_some hlast
    have hold : ∀ h ∈ b.hashEntries, h ∈ (b.AddKey k).hashEntries := by
      intro h hh
      unfold FullFilterBitsBuilder.AddKey
      simp only []
      split_ifs
      · simp [hh]
      · exact hh
    have hb : (b.AddKey k).bitsPerKey = b.bitsPerKey := by
      unfold FullFilterBitsBuilder.AddKey; simp only []; split_ifs <;> rfl
    have hp : (b.AddKey k).numProbes = b.numProbes := by
      unfold FullFilterBitsBuilder.AddKey; simp only []; split_ifs <;> rfl
    refine ⟨by rw [List.foldl_cons, h1, hb], by rw [List.foldl_cons, h2, hp], ?_, ?_⟩
    · intro h hh
      exact h3 h (hold h hh)
    · intro x hx
      rcases List.mem_cons.1 hx with rfl | hx
      · exact h3 _ hself
      · exact h4 x hx

/-! ## The policy -/

theorem NewBloomFilterPolicy_numProbes_range (bitsPerKey : Int) :
    1 ≤ (NewBloomFilterPolicy bitsPerKey).numProbes ∧
    (NewBloomFilterPolicy bitsPerKey).numProbes ≤ 30 := by
  unfold NewBloomFilterPolicy
  simp only []
  split_ifs <;> omega

theorem byteOfInt_of_range (p : Int) (h0 : 0 ≤ p) (h1 : p < 256) :
    ((byteOfInt p : Nat) : Int) = p := by
  unfold byteOfInt
  omega

/-! ## The reader on a blob with a consistent trailer -/

theorem recoverLog2_lines (lines : Nat) (hl : 0 < lines) (hl2 : lines ≤ 8388607) :
    recoverLog2 (lines * 64) lines 33 0 = some (6, true) := by
  have e0 : (lines * 64) >>> 0 = lines * 64 := by simp
  have e1 : (lines * 64) >>> 1 = lines * 32 := by
    have := Nat.shiftRight_eq_div_pow (lines * 64) 1; omega
  have e2 : (lines * 64) >>> 2 = lines * 16 := by
    have := Nat.shiftRight_eq_div_pow (lines * 64) 2; omega
  have e3 : (lines * 64) >>> 3 = lines * 8 := by
    have := Nat.shiftRight_eq_div_pow (lines * 64) 3; omega
  have e4 : (lines * 64) >>> 4 = lines * 4 := by
    have := Nat.shiftRight_eq_div_pow (lines * 64) 4; omega
  have e5 : (lines * 64) >>> 5 = lines * 2 := by
    have := Nat.shiftRight_eq_div_pow (lines * 64) 5; omega
  have e6 : (lines * 64) >>> 6 = lines := by
    have := Nat.shiftRight_eq_div_pow (lines * 64) 6; omega
  have n0 : ¬ lines * 64 = 0 := by omega
  have n1 : ¬ lines * 32 = 0 := by omega
  have n2 : ¬ lines * 16 = 0 := by omega
  have n3 : ¬ lines * 8 = 0 := by omega
  have n4 : ¬ lines * 4 = 0 := by omega
  have n5 : ¬ lines * 2 = 0 := by omega
  have n6 : ¬ lines = 0 := by omega
  have m0 : ¬ lines * 64 = lines := by omega
  have m1 : ¬ lines * 32 = lines := by omega
  have m2 : ¬ lines * 16 = lines := by omega
  have m3 : ¬ lines * 8 = lines := by omega
  have m4 : ¬ lines * 4 = lines := by omega
  have m5 : ¬ lines * 2 = lines := by omega
  simp only [recoverLog2, e0, e1, e2, e3, e4, e5, e6, n0, n1, n2, n3, n4, n5, n6, m0, m1, m2,
    m3, m4, m5, if_false, if_true, Nat.zero_add, Nat.reduceAdd]

theorem NewFullFilterBitsReader_of_trailer (blob : List Nat) (p lines : Nat) (hl : 0 < lines)
    (hl2 : lines ≤ 8388607) (hlen : blob.length = lines * 64 + 5)
    (hp : blob[lines * 64]? = some p) (ht : blob.drop (lines * 64 + 1) = bigEndianBytes lines) :
    NewFullFilterBitsReader blob =
      some { data := blob, numProbes := (p : Int), numLines := lines,
             log2CacheLineSize := 6 } := by
  have h0 : ¬ blob.length = 0 := by omega
  have h5 : blob.length > 5 := by omega
  have e5 : blob.length - 5 = lines * 64 := by omega
  have e4 : blob.length - 4 = lines * 64 + 1 := by omega
  have hx : u32 (lines * 64) = lines * 64 := u32_of_lt (by omega)
  have hmod : lines * 64 % lines = 0 := Nat.mul_mod_right _ _
  simp only [NewFullFilterBitsReader, h0, if_false, h5, if_true, e5, e4, hp, ht,
    bigEndianUint32_bigEndianBytes lines (by omega), hx, hmod, gt_iff_lt, hl, ne_eq,
    not_true_eq_false, and_false, recoverLog2_lines lines hl hl2]

/-! ## Builder and reader through the policy -/

/-- What building through the policy yields for a key sequence that leaves at least one
hash: the blob, the reader made from it, and the match of every accumulated hash. -/
theorem policy_build_read (bitsPerKey : Int) (ks : List (List Nat))
    (b0 : FullFilterBitsBuilder)
    (hb0 : b0 = { bitsPerKey := bitsPerKey,
                  numProbes := (NewBloomFilterPolicy bitsPerKey).numProbes,
                  hashEntries := [] })
    (hne : (ks.foldl FullFilterBitsBuilder.AddKey b0).hashEntries ≠ []) :
    ∃ lines blob, lines % 2 = 1 ∧ lines ≤ 8388607 ∧
      (ks.foldl FullFilterBitsBuilder.AddKey b0).CalculateSpace
        (ks.foldl FullFilterBitsBuilder.AddKey b0).hashEntries.length
          = (lines * 64 + 5, lines * 512, lines) ∧
      (ks.foldl FullFilterBitsBuilder.AddKey b0).Finish
        = some (blob, { ks.foldl FullFilterBitsBuilder.AddKey b0 with hashEntries := [] }) ∧
      blob.length = lines * 64 + 5 ∧
      blob[lines * 64]? = some (byteOfInt (NewBloomFilterPolicy bitsPerKey).numProbes) ∧
      blob.drop (lines * 64 + 1) = bigEndianBytes lines ∧
      NewFullFilterBitsReader blob =
        some { data := blob, numProbes := (NewBloomFilterPolicy bitsPerKey).numProbes,
               numLines := lines, log2CacheLineSize := 6 } ∧
      ∀ k ∈ ks,
        FullFilterBitsReader.KeyMayMatch
          { data := blob, numProbes := (NewBloomFilterPolicy bitsPerKey).numProbes,
            numLines := lines, log2CacheLineSize := 6 } k = some true := by
  obtain ⟨_, hnp, _, hmem⟩ := foldl_AddKey_spec ks b0
  have hnp0 : b0.numProbes = (NewBloomFilterPolicy bitsPerKey).numProbes := by rw [hb0]
  rw [hnp0] at hnp
  obtain ⟨hr1, hr2⟩ := NewBloomFilterPolicy_numProbes_range bitsPerKey
  obtain ⟨lines, blob, h1, h2, h3, h4, h5, h6, h7, h8⟩ := Finish_pos _ hne
  rw [hnp] at h6 h8
  have hl : 0 < lines := by omega
  have hrd := NewFullFilterBitsReader_of_trailer blob _ lines hl h2 h5 h6 h7
  rw [byteOfInt_of_range _ (by omega) (by omega)] at hrd
  refine ⟨lines, blob, h1, h2, h3, h4, h5, h6, h7, hrd, ?_⟩
  intro k hk
  have hmod : BloomHash k % lines < lines := Nat.mod_lt _ hl
  have hoff : u32 ((BloomHash k % lines) <<< 6) = BloomHash k % lines * 64 := by
    rw [Nat.shiftLeft_eq]
    exact u32_of_lt (by omega)
  have hc1 : ¬ blob.length ≤ 5 := by omega
  have hc2 : ¬ ((NewBloomFilterPolicy bitsPerKey).numProbes = 0 ∨ lines = 0) := by omega
  have hc3 : BloomHash k % lines * 64 ≤ blob.length := by omega
  have hm : lineMask (6 + 3) = 511 := lineMask_nine
  simp only [FullFilterBitsReader.KeyMayMatch, hc1, hc2, if_false, hoff, hc3, if_true,
    LegacyLocalityBloomImplHashMayMatch, hm]
  exact h8 _ (hmem k hk)

theorem GetFilterBitsBuilder_eq (bitsPerKey : Int) (hb : 1 ≤ bitsPerKey) :
    (NewBloomFilterPolicy bitsPerKey).GetFilterBitsBuilder =
      some { bitsPerKey := bitsPerKey,
             numProbes := (NewBloomFilterPolicy bitsPerKey).numProbes, hashEntries := [] } := by
  have h : ¬ bitsPerKey ≤ 0 := by omega
  have hbpk : (NewBloomFilterPolicy bitsPerKey).bitsPerKey = bitsPerKey := rfl
  simp only [BloomFilterPolicy.GetFilterBitsBuilder, NewFullFilterBitsBuilder, hbpk, h, if_false]

theorem NewFullFilterBitsReader_short (blob : List Nat) (h0 : blob ≠ [])
    (h5 : blob.length ≤ 5) :
    NewFullFilterBitsReader blob =
      some { data := blob, numProbes := 0, numLines := 0, log2CacheLineSize := 0 } := by
  have hl0 : ¬ blob.length = 0 := fun h => h0 (List.length_eq_zero.1 h)
  have hl5 : ¬ blob.length > 5 := by omega
  simp only [NewFullFilterBitsReader, hl0, hl5, if_false, gt_iff_lt, Nat.lt_irrefl, false_and]

/-! ## Claims -/

/-- C1: no false negatives. For every `bitsPerKey >= 1` and every key sequence `ks`, the
policy's builder exists, `Finish` after adding all of `ks` returns a blob, the policy's
reader for that blob exists, and its `KeyMayMatch` returns `true` for every key of `ks`. -/
theorem c1_no_false_negatives (bitsPerKey : Int) (hb : 1 ≤ bitsPerKey) (ks : List (List Nat)) :
    ∃ b blob b1 r,
      (NewBloomFilterPolicy bitsPerKey).GetFilterBitsBuilder = some b ∧
      (ks.foldl FullFilterBitsBuilder.AddKey b).Finish = some (blob, b1) ∧
      (NewBloomFilterPolicy bitsPerKey).GetFilterBitsReader blob = some r ∧
      ∀ k ∈ ks, r.KeyMayMatch k = some true := by
  refine ⟨{ bitsPerKey := bitsPerKey,
            numProbes := (NewBloomFilterPolicy bitsPerKey).numProbes, hashEntries := [] }, ?_⟩
  by_cases hne : (ks.foldl FullFilterBitsBuilder.AddKey
      { bitsPerKey := bitsPerKey, numProbes := (NewBloomFilterPolicy bitsPerKey).numProbes,
        hashEntries := [] }).hashEntries = []
  · refine ⟨_, _, _, GetFilterBitsBuilder_eq bitsPerKey hb, Finish_nil _ hne,
      NewFullFilterBitsReader_short _ (by simp) (by simp), ?_⟩
    · intro k hk
      have hmem := (foldl_AddKey_spec ks
        { bitsPerKey := bitsPerKey, numProbes := (NewBloomFilterPolicy bitsPerKey).numProbes,
          hashEntries := [] }).2.2.2 k hk
      rw [hne] at hmem
      cases hmem
  · obtain ⟨lines, blob, -, -, -, h4, -, -, -, h8, h9⟩ :=
      policy_build_read bitsPerKey ks _ rfl hne
    exact ⟨blob, _, _, GetFilterBitsBuilder_eq bitsPerKey hb, h4, h8, h9⟩

/-- Witness for C1: the policy with 10 bits per key and the keys "key0", "key1". -/
theorem c1_no_false_negatives_witness :
    (1 : Int) ≤ 10 ∧
    ∃ b blob b1 r,
      (NewBloomFilterPolicy 10).GetFilterBitsBuilder = some b ∧
      ([[107, 101, 121, 48], [107, 101, 121, 49]].foldl FullFilterBitsBuilder.AddKey b).Finish
        = some (blob, b1) ∧
      (NewBloomFilterPolicy 10).GetFilterBitsReader blob = some r ∧
      ∀ k ∈ [[107, 101, 121, 48], [107, 101, 121, 49]], r.KeyMayMatch k = some true :=
  ⟨by decide, c1_no_false_negatives 10 (by decide) [[107, 101, 121, 48], [107, 101, 121, 49]]⟩

/-- C3: trailer round trip. For every `bitsPerKey >= 1` and every non-empty key sequence,
the reader made from the blob that `Finish` returns has the policy's `numProbes`, the
`numLines` that `CalculateSpace` returns for the number of accumulated hashes, and
`log2CacheLineSize = 6`. -/
theorem c3_trailer_round_trip (bitsPerKey : Int) (hb : 1 ≤ bitsPerKey) (ks : List (List Nat))
    (hks : ks ≠ []) :
    ∃ b blob b1 r,
      (NewBloomFilterPolicy bitsPerKey).GetFilterBitsBuilder = some b ∧
      (ks.foldl FullFilterBitsBuilder.AddKey b).Finish = some (blob, b1) ∧
      NewFullFilterBitsReader blob = some r ∧
      r.numProbes = (NewBloomFilterPolicy bitsPerKey).numProbes ∧
      r.numLines = ((ks.foldl FullFilterBitsBuilder.AddKey b).CalculateSpace
        (ks.foldl FullFilterBitsBuilder.AddKey b).hashEntries.length).2.2 ∧
      r.log2CacheLineSize = 6 := by
  have hne : (ks.foldl FullFilterBitsBuilder.AddKey
      { bitsPerKey := bitsPerKey, numProbes := (NewBloomFilterPolicy bitsPerKey).numProbes,
        hashEntries := [] }).hashEntries ≠ [] := by
    obtain ⟨k, hk⟩ := List.exists_mem_of_ne_nil ks hks
    exact List.ne_nil_of_mem ((foldl_AddKey_spec ks _).2.2.2 k hk)
  obtain ⟨lines, blob, -, -, h3, h4, -, -, -, h8, -⟩ :=
    policy_build_read bitsPerKey ks _ rfl hne
  exact ⟨_, blob, _, _, GetFilterBitsBuilder_eq bitsPerKey hb, h4, h8, rfl, by rw [h3], rfl⟩

/-- Witness for C3: the policy with 10 bits per key and the single key "key0". -/
theorem c3_trailer_round_trip_witness :
    (1 : Int) ≤ 10 ∧ [[107, 101, 121, 48]] ≠ ([] : List (List Nat)) ∧
    ∃ b blob b1 r,
      (NewBloomFilterPolicy 10).GetFilterBitsBuilder = some b ∧
      ([[107, 101, 121, 48]].foldl FullFilterBitsBuilder.AddKey b).Finish = some (blob, b1) ∧
      NewFullFilterBitsReader blob = some r ∧
      r.numProbes = (NewBloomFilterPolicy 10).numProbes ∧
      r.numLines = (([[107, 101, 121, 48]].foldl FullFilterBitsBuilder.AddKey b).CalculateSpace
        ([[107, 101, 121, 48]].foldl FullFilterBitsBuilder.AddKey b).hashEntries.length).2.2 ∧
      r.log2CacheLineSize = 6 :=
  ⟨by decide, by simp, c3_trailer_round_trip 10 (by decide) [[107, 101, 121, 48]] (by simp)⟩

/-- C4: blob layout. For every builder state, with `(sz, totalBits, numLines)` the result
of `CalculateSpace` on the number of accumulated hashes, `Finish` returns a blob of length
`totalBits/8 + 5` (which is `sz`) whose byte at index `totalBits/8` is `byte(numProbes)` and
whose last 4 bytes are `numLines` in big-endian order; with no accumulated hash the blob
is `[byte(numProbes), 0, 0, 0, 0]`. -/
theorem c4_blob_layout (b : FullFilterBitsBuilder) :
    ∃ blob,
      b.Finish = some (blob, { b with hashEntries := [] }) ∧
      blob.length = (b.CalculateSpace b.hashEntries.length).2.1 / 8 + 5 ∧
      blob.length = (b.CalculateSpace b.hashEntries.length).1 ∧
      blob[(b.CalculateSpace b.hashEntries.length).2.1 / 8]? = some (byteOfInt b.numProbes) ∧
      blob.drop ((b.CalculateSpace b.hashEntries.length).2.1 / 8 + 1)
        = [(b.CalculateSpace b.hashEntries.length).2.2 / 2 ^ 24 % 256,
           (b.CalculateSpace b.hashEntries.length).2.2 / 2 ^ 16 % 256,
           (b.CalculateSpace b.hashEntries.length).2.2 / 2 ^ 8 % 256,
           (b.CalculateSpace b.hashEntries.length).2.2 % 256] ∧
      bigEndianUint32 (blob.drop ((b.CalculateSpace b.hashEntries.length).2.1 / 8 + 1))
        = some (b.CalculateSpace b.hashEntries.length).2.2 ∧
      (b.hashEntries.length = 0 → blob = [byteOfInt b.numProbes, 0, 0, 0, 0]) := by
  by_cases hne : b.hashEntries = []
  · refine ⟨_, Finish_nil b hne, ?_⟩
    simp [hne, CalculateSpace_zero, bigEndianUint32]
  · obtain ⟨lines, blob, -, h2, h3, h4, h5, h6, h7, -⟩ := Finish_pos b hne
    have hdiv : lines * 512 / 8 = lines * 64 := by omega
    refine ⟨blob, h4, ?_⟩
    rw [h3]
    simp only [hdiv]
    refine ⟨h5, h5, h6, ?_, ?_, ?_⟩
    · rw [h7]
      simp only [bigEndianBytes, Nat.shiftRight_eq_div_pow]
    · rw [h7]
      exact bigEndianUint32_bigEndianBytes lines (by omega)
    · intro h0
      exact absurd (List.length_eq_zero.1 h0) hne

/-- Witness for C4: a builder with `numProbes = 6` and no accumulated hash returns
`[6, 0, 0, 0, 0]`. -/
theorem c4_blob_layout_witness :
    ∃ blob, (FullFilterBitsBuilder.mk 10 6 []).Finish
        = some (blob, FullFilterBitsBuilder.mk 10 6 []) ∧
      blob = [6, 0, 0, 0, 0] := by
  obtain ⟨blob, h1, -, -, -, -, -, h7⟩ := c4_blob_layout (FullFilterBitsBuilder.mk 10 6 [])
  exact ⟨blob, h1, h7 rfl⟩

/-- C5: `CalculateSpace` sizing. For a builder with `bitsPerKey >= 1`,
`CalculateSpace(0) = (5, 0, 0)`, and for `numEntries > 0` with
`numEntries * bitsPerKey <= 2^32 - 512` the result is `(T/8 + 5, T, T/512)` where `T` is the
least odd multiple of 512 that is at least `numEntries * bitsPerKey`. -/
theorem c5_calculateSpace_sizing (b : FullFilterBitsBuilder) (hb : 1 ≤ b.bitsPerKey) :
    b.CalculateSpace 0 = (5, 0, 0) ∧
    ∀ numEntries : Int, 0 < numEntries → numEntries * b.bitsPerKey ≤ 2 ^ 32 - 512 →
      ∃ T : Nat,
        (T % 512 = 0 ∧ T / 512 % 2 = 1 ∧ numEntries * b.bitsPerKey ≤ (T : Int) ∧
          ∀ U : Nat, U % 512 = 0 → U / 512 % 2 = 1 → numEntries * b.bitsPerKey ≤ (U : Int) →
            T ≤ U) ∧
        b.CalculateSpace numEntries = (T / 8 + 5, T, T / 512) := by
  refine ⟨CalculateSpace_zero b, ?_⟩
  intro numEntries hn hle
  have hpos : 0 < numEntries * b.bitsPerKey := Int.mul_pos hn (by omega)
  generalize hx : numEntries * b.bitsPerKey = x at hle hpos
  simp only [FullFilterBitsBuilder.CalculateSpace, gt_iff_lt, hn, if_true, hx,
    FullFilterBitsBuilder.getTotalBitsForLocality, u32, u32OfInt, CacheLineSize]
  have hxn : (x % 2 ^ 32).toNat = x.toNat := by omega
  rw [hxn]
  have hx1 : 1 ≤ x.toNat := by omega
  have hx2 : x.toNat ≤ 2 ^ 32 - 512 := by omega
  have hxx : x = (x.toNat : Int) := by omega
  generalize x.toNat = y at hx1 hx2 hxx
  subst hxx
  split_ifs with hev
  · refine ⟨((y + 64 * 8 - 1) % 2 ^ 32 / (64 * 8) + 1) * 512, ⟨?_, ?_, ?_, ?_⟩, ?_⟩
    · omega
    · omega
    · omega
    · intro U h1 h2 h3; omega
    · refine Prod.ext ?_ (Prod.ext ?_ ?_) <;> simp only [] <;> omega
  · refine ⟨((y + 64 * 8 - 1) % 2 ^ 32 / (64 * 8)) * 512, ⟨?_, ?_, ?_, ?_⟩, ?_⟩
    · omega
    · omega
    · omega
    · intro U h1 h2 h3; omega
    · refine Prod.ext ?_ (Prod.ext ?_ ?_) <;> simp only [] <;> omega

/-- Witness for C5: a builder with 10 bits per key and 10 entries. -/
theorem c5_calculateSpace_sizing_witness :
    (1 : Int) ≤ (FullFilterBitsBuilder.mk 10 6 []).bitsPerKey ∧
    (FullFilterBitsBuilder.mk 10 6 []).CalculateSpace 0 = (5, 0, 0) ∧
    (0 : Int) < 10 ∧ (10 : Int) * (FullFilterBitsBuilder.mk 10 6 []).bitsPerKey ≤ 2 ^ 32 - 512 ∧
    ∃ T : Nat,
      (T % 512 = 0 ∧ T / 512 % 2 = 1 ∧
        (10 : Int) * (FullFilterBitsBuilder.mk 10 6 []).bitsPerKey ≤ (T : Int) ∧
        ∀ U : Nat, U % 512 = 0 → U / 512 % 2 = 1 →
          (10 : Int) * (FullFilterBitsBuilder.mk 10 6 []).bitsPerKey ≤ (U : Int) → T ≤ U) ∧
      (FullFilterBitsBuilder.mk 10 6 []).CalculateSpace 10 = (T / 8 + 5, T, T / 512) :=
  ⟨by decide, (c5_calculateSpace_sizing (FullFilterBitsBuilder.mk 10 6 []) (by decide)).1,
    by decide, by decide,
    (c5_calculateSpace_sizing (FullFilterBitsBuilder.mk 10 6 []) (by decide)).2 10
      (by decide) (by decide)⟩

/-! ## The reader on an arbitrary blob -/

/-- The exponent search ends within the iteration bound, and a reported match is a real
one. -/
theorem recoverLog2_spec (x numLines : Nat) : ∀ (fuel k : Nat), 0 < fuel →
    x < 2 ^ (k + fuel - 1) →
    ∃ k2 found, recoverLog2 x numLines fuel k = some (k2, found) ∧
      (found = true → x >>> k2 = numLines ∧ x >>> k2 ≠ 0) := by
  intro fuel
  induction fuel with
  | zero => intro k h; omega
  | succ fuel ih =>
    intro k _ hx
    simp only [recoverLog2]
    by_cases h0 : x >>> k = 0
    · exact ⟨k, false, by rw [if_pos h0], by simp⟩
    · rw [if_neg h0]
      by_cases h1 : x >>> k = numLines
      · exact ⟨k, true, by rw [if_pos h1], fun _ => ⟨h1, h0⟩⟩
      · rw [if_neg h1]
        have hfuel : 0 < fuel := by
          rcases Nat.eq_zero_or_pos fuel with hz | hz
          · subst hz
            exfalso
            apply h0
            rw [Nat.shiftRight_eq_div_pow]
            exact Nat.div_eq_of_lt (by simpa using hx)
          · exact hz
        have he : k + 1 + fuel - 1 = k + (fuel + 1) - 1 := by omega
        exact ih (k + 1) hfuel (by rw [he]; exact hx)

theorem bigEndianUint32_isSome (l : List Nat) (h : 4 ≤ l.length) :
    ∃ n, bigEndianUint32 l = some n := by
  match l, h with
  | b0 :: b1 :: b2 :: b3 :: _, _ => exact ⟨_, rfl⟩

/-- The constructor never panics on a non-empty blob; a reader it leaves with a non-zero
line count has that count times the recovered line size inside the data region. -/
theorem NewFullFilterBitsReader_spec (blob : List Nat) (h0 : blob ≠ []) :
    ∃ r, NewFullFilterBitsReader blob = some r ∧ r.data = blob ∧
      (r.numLines ≠ 0 → 5 < blob.length ∧
        u32 (blob.length - 5) >>> r.log2CacheLineSize = r.numLines) := by
  have hl0 : ¬ blob.length = 0 := fun h => h0 (List.length_eq_zero.1 h)
  by_cases h5 : blob.length ≤ 5
  · exact ⟨_, NewFullFilterBitsReader_short blob h0 h5, rfl, fun h => absurd rfl h⟩
  · have hgt : blob.length > 5 := by omega
    have hlt : blob.length - 5 < blob.length := by omega
    have hp : blob[blob.length - 5]? = some blob[blob.length - 5] :=
      List.getElem?_eq_getElem hlt
    obtain ⟨n, hn⟩ := bigEndianUint32_isSome (blob.drop (blob.length - 4))
      (by rw [List.length_drop]; omega)
    simp only [NewFullFilterBitsReader, hl0, if_false, hgt, if_true, hp, hn]
    by_cases hc1 : n > 0 ∧ u32 (blob.length - 5) % n ≠ 0
    · rw [if_pos hc1]
      exact ⟨_, rfl, rfl, fun h => absurd rfl h⟩
    · rw [if_neg hc1]
      by_cases hc2 : n > 0
      · rw [if_pos hc2]
        obtain ⟨k2, found, hrec, hfound⟩ := recoverLog2_spec (u32 (blob.length - 5)) n 33 0
          (by omega) (by simpa using u32_lt _)
        rw [hrec]
        cases found with
        | true =>
          exact ⟨_, rfl, rfl, fun _ => ⟨trivial, (hfound rfl).1⟩⟩
        | false => exact ⟨_, rfl, rfl, fun h => absurd rfl h⟩
      · rw [if_neg hc2]
        exact ⟨_, rfl, rfl, fun h => absurd (by simpa using hc2) h⟩

theorem lineMask_div_lt (k : Nat) : lineMask (k + 3) / 8 < 2 ^ k := by
  unfold lineMask u32
  rw [Nat.one_shiftLeft]
  by_cases h : k + 3 < 32
  · have h1 : 2 ^ k < 2 ^ 29 := Nat.pow_lt_pow_right (by norm_num) (by omega)
    have h2 : 0 < 2 ^ k := Nat.two_pow_pos k
    have h3 : 2 ^ (k + 3) = 2 ^ k * 8 := by rw [Nat.pow_add]
    rw [h3]
    generalize 2 ^ k = P at h1 h2
    omega
  · have h1 : 2 ^ (k + 3) % 2 ^ 32 = 0 :=
      Nat.mod_eq_zero_of_dvd (Nat.pow_dvd_pow 2 (by omega))
    have h2 : 2 ^ 29 ≤ 2 ^ k := Nat.pow_le_pow_right (by norm_num) (by omega)
    rw [h1]
    generalize 2 ^ k = P at h2
    omega

theorem localityMatchLoop_isSome (mask delta : Nat) (D : List Nat)
    (hD : mask / 8 < D.length) : ∀ (n h : Nat),
    ∃ v, localityMatchLoop mask delta D n h = some v := by
  intro n
  induction n with
  | zero => intro h; exact ⟨true, rfl⟩
  | succ n ih =>
    intro h
    have hidx : (h &&& mask) / 8 < D.length :=
      Nat.lt_of_le_of_lt (Nat.div_le_div_right Nat.and_le_right) hD
    simp only [localityMatchLoop, List.getElem?_eq_getElem hidx]
    split_ifs
    · exact ⟨false, rfl⟩
    · exact ih _

/-- The probe of one key by a reader whose line count and line size fit the data region:
the slice `data[offset:]` exists and the probe loop stays inside it. -/
theorem reader_probe_isSome (r : FullFilterBitsReader) (hn : r.numLines ≠ 0)
    (h5 : 5 < r.data.length)
    (hshift : u32 (r.data.length - 5) >>> r.log2CacheLineSize = r.numLines) (hash : Nat) :
    u32 ((hash % r.numLines) <<< r.log2CacheLineSize)
        = hash % r.numLines * 2 ^ r.log2CacheLineSize ∧
    hash % r.numLines * 2 ^ r.log2CacheLineSize + 2 ^ r.log2CacheLineSize
        ≤ r.data.length - 5 ∧
    ∃ v, LegacyLocalityBloomImplHashMayMatch hash r.numProbes r.log2CacheLineSize
      (r.data.drop (hash % r.numLines * 2 ^ r.log2CacheLineSize)) = some v := by
  have hx : u32 (r.data.length - 5) ≤ r.data.length - 5 := Nat.mod_le _ _
  have hx32 := u32_lt (r.data.length - 5)
  rw [Nat.shiftRight_eq_div_pow] at hshift
  have hmul : r.numLines * 2 ^ r.log2CacheLineSize ≤ u32 (r.data.length - 5) := by
    rw [← hshift]; exact Nat.div_mul_le_self _ _
  have hmod : hash % r.numLines + 1 ≤ r.numLines :=
    Nat.mod_lt _ (Nat.pos_of_ne_zero hn)
  have hle := Nat.mul_le_mul_right (2 ^ r.log2CacheLineSize) hmod
  rw [Nat.add_mul, Nat.one_mul] at hle
  have hmask := lineMask_div_lt r.log2CacheLineSize
  refine ⟨?_, by omega, ?_⟩
  · rw [Nat.shiftLeft_eq]
    exact u32_of_lt (by omega)
  · exact localityMatchLoop_isSome _ _ _ (by rw [List.length_drop]; omega) _ _

theorem lt_length_of_getElem? {α : Type} {l : List α} {i : Nat} {a : α}
    (h : l[i]? = some a) : i < l.length := by
  rcases Nat.lt_or_ge i l.length with hlt | hge
  · exact hlt
  · rw [List.getElem?_eq_none hge] at h; cases h

/-- The batch loop on a reader whose line count and line size fit the data region: it does
not panic, and it leaves at position `i + t` the answer of the single-key check for the
`t`-th remaining key. -/
theorem keysLoop_spec (r : FullFilterBitsReader) (hn : r.numLines ≠ 0) (hp : r.numProbes ≠ 0)
    (h5 : 5 < r.data.length)
    (hshift : u32 (r.data.length - 5) >>> r.log2CacheLineSize = r.numLines) :
    ∀ (keys : List (List Nat)) (i : Nat) (mm : List Bool), mm.length = i + keys.length →
    (∀ j, i ≤ j → j < mm.length → mm[j]? = some true) →
    ∃ out, r.keysLoop keys i mm = some out ∧ out.length = mm.length ∧
      (∀ j, j < i → out[j]? = mm[j]?) ∧
      ∀ (t : Nat) (key : List Nat), keys[t]? = some key → r.KeyMayMatch key = out[i + t]? := by
  intro keys
  induction keys with
  | nil =>
    intro i mm _ _
    exact ⟨mm, rfl, rfl, fun _ _ => rfl, fun t key h => by simp at h⟩
  | cons key rest ih =>
    intro i mm hlen htrue
    simp only [List.length_cons] at hlen
    obtain ⟨hoff, hle, v, hv⟩ := reader_probe_isSome r hn h5 hshift (BloomHash key)
    have hc1 : ¬ r.data.length ≤ 5 := by omega
    have hc2 : ¬ (r.numProbes = 0 ∨ r.numLines = 0) := by
      rintro (h | h)
      · exact hp h
      · exact hn h
    have hc3 : BloomHash key % r.numLines * 2 ^ r.log2CacheLineSize ≤ r.data.length :=
      Nat.le_trans (Nat.le_add_right _ _) (Nat.le_trans hle (Nat.sub_le _ _))
    have hkey : r.KeyMayMatch key = some v := by
      simp only [FullFilterBitsReader.KeyMayMatch, hc1, hc2, if_false, hoff, hc3, if_true, hv]
    simp only [FullFilterBitsReader.keysLoop, hoff, hc3, if_true, hv]
    cases v with
    | true =>
      obtain ⟨out, g1, g2, g3, g4⟩ := ih (i + 1) mm (by omega)
        (fun j hj hj2 => htrue j (by omega) hj2)
      refine ⟨out, g1, g2, fun j hj => g3 j (by omega), ?_⟩
      intro t k hk
      cases t with
      | zero =>
        simp only [List.getElem?_cons_zero, Option.some.injEq] at hk
        subst hk
        rw [hkey, Nat.add_zero, g3 i (by omega), htrue i (Nat.le_refl _) (by omega)]
      | succ t =>
        simp only [List.getElem?_cons_succ] at hk
        have he : i + (t + 1) = i + 1 + t := by omega
        rw [he]
        exact g4 t k hk
    | false =>
      obtain ⟨out, g1, g2, g3, g4⟩ := ih (i + 1) (mm.set i false)
        (by rw [List.length_set]; omega)
        (fun j hj hj2 => by
          rw [List.getElem?_set_ne (by omega)]
          exact htrue j (by omega) (by rw [List.length_set] at hj2; exact hj2))
      rw [List.length_set] at g2
      refine ⟨out, g1, g2, ?_, ?_⟩
      · intro j hj
        rw [g3 j (by omega), List.getElem?_set_ne (by omega)]
      · intro t k hk
        cases t with
        | zero =>
          simp only [List.getElem?_cons_zero, Option.some.injEq] at hk
          subst hk
          rw [hkey, Nat.add_zero, g3 i (by omega), List.getElem?_set_eq_of_lt _ (by omega)]
        | succ t =>
          simp only [List.getElem?_cons_succ] at hk
          have he : i + (t + 1) = i + 1 + t := by omega
          rw [he]
          exact g4 t k hk

/-- C2: batch/single consistency. For the reader made from any non-empty blob and any list
of keys, `KeysMayMatch` returns a list of the same length as `keys` whose `i`-th element is
what `KeyMayMatch` returns for `keys[i]` (neither call panics). -/
theorem c2_batch_single_consistency (blob : List Nat) (h0 : blob ≠ [])
    (keys : List (List Nat)) :
    ∃ r bs, NewFullFilterBitsReader blob = some r ∧ r.KeysMayMatch keys = some bs ∧
      bs.length = keys.length ∧
      ∀ (i : Nat) (key : List Nat), keys[i]? = some key → r.KeyMayMatch key = bs[i]? := by
  obtain ⟨r, hr, hdata, hinv⟩ := NewFullFilterBitsReader_spec blob h0
  by_cases h5 : r.data.length ≤ 5
  · refine ⟨r, List.replicate keys.length false, hr, ?_, by simp, ?_⟩
    · simp only [FullFilterBitsReader.KeysMayMatch, h5, if_true]
    · intro i key hk
      have hi := lt_length_of_getElem? hk
      simp only [FullFilterBitsReader.KeyMayMatch, h5, if_true, List.getElem?_replicate, hi]
  · by_cases hz : r.numProbes = 0 ∨ r.numLines = 0
    · refine ⟨r, List.replicate keys.length true, hr, ?_, by simp, ?_⟩
      · simp only [FullFilterBitsReader.KeysMayMatch, h5, if_false, hz, if_true]
      · intro i key hk
        have hi := lt_length_of_getElem? hk
        simp only [FullFilterBitsReader.KeyMayMatch, h5, if_false, hz, if_true,
          List.getElem?_replicate, hi]
    · have hn : r.numLines ≠ 0 := fun h => hz (Or.inr h)
      have hp : r.numProbes ≠ 0 := fun h => hz (Or.inl h)
      obtain ⟨_, hshift⟩ := hinv hn
      rw [← hdata] at hshift
      obtain ⟨out, g1, g2, -, g4⟩ := keysLoop_spec r hn hp (by omega) hshift keys 0
        (List.replicate keys.length true) (by simp)
        (fun j _ hj => by
          rw [List.length_replicate] at hj
          simp only [List.getElem?_replicate, hj, if_true])
      refine ⟨r, out, hr, ?_, by rw [g2, List.length_replicate], ?_⟩
      · simp only [FullFilterBitsReader.KeysMayMatch, h5, if_false, hz]
        exact g1
      · intro i key hk
        have := g4 i key hk
        rw [Nat.zero_add] at this
        exact this

/-- Witness for C2: the blob `[1, 0, 0, 0, 0, 0, 0, 0, 1, 0, 0, 0, 4]` (8 data bytes, one
probe, 4 lines of 2 bytes) and the keys "a", "b". -/
theorem c2_batch_single_consistency_witness :
    [1, 0, 0, 0, 0, 0, 0, 0, 1, 0, 0, 0, 4] ≠ ([] : List Nat) ∧
    ∃ r bs, NewFullFilterBitsReader [1, 0, 0, 0, 0, 0, 0, 0, 1, 0, 0, 0, 4] = some r ∧
      r.KeysMayMatch [[97], [98]] = some bs ∧
      bs.length = [[97], [98]].length ∧
      ∀ (i : Nat) (key : List Nat), [[97], [98]][i]? = some key → r.KeyMayMatch key = bs[i]? :=
  ⟨by simp, c2_batch_single_consistency [1, 0, 0, 0, 0, 0, 0, 0, 1, 0, 0, 0, 4] (by simp)
    [[97], [98]]⟩

/-! ## The three outcomes of the constructor on a blob longer than 5 bytes -/

theorem NewFullFilterBitsReader_indivisible (blob : List Nat) (p n : Nat)
    (h5 : 5 < blob.length) (hp : blob[blob.length - 5]? = some p)
    (hn : bigEndianUint32 (blob.drop (blob.length - 4)) = some n)
    (hpos : n ≠ 0) (hmod : u32 (blob.length - 5) % n ≠ 0) :
    NewFullFilterBitsReader blob =
      some { data := blob, numProbes := 0, numLines := 0, log2CacheLineSize := 0 } := by
  have hl0 : ¬ blob.length = 0 := by omega
  have hgt : blob.length > 5 := h5
  have hc : n > 0 := Nat.pos_of_ne_zero hpos
  simp only [NewFullFilterBitsReader, hl0, if_false, hgt, if_true, hp, hn, hc, hmod, ne_eq,
    not_false_eq_true, and_self]

theorem NewFullFilterBitsReader_search (blob : List Nat) (p n k : Nat) (found : Bool)
    (h5 : 5 < blob.length) (hp : blob[blob.length - 5]? = some p)
    (hn : bigEndianUint32 (blob.drop (blob.length - 4)) = some n)
    (hpos : n ≠ 0) (hmod : u32 (blob.length - 5) % n = 0)
    (hrec : recoverLog2 (u32 (blob.length - 5)) n 33 0 = some (k, found)) :
    NewFullFilterBitsReader blob =
      some (if found = true then
              { data := blob, numProbes := (p : Int), numLines := n, log2CacheLineSize := k }
            else { data := blob, numProbes := 0, numLines := 0, log2CacheLineSize := k }) := by
  have hl0 : ¬ blob.length = 0 := by omega
  have hgt : blob.length > 5 := h5
  have hc2 : n > 0 := Nat.pos_of_ne_zero hpos
  simp only [NewFullFilterBitsReader, hl0, if_false, hgt, if_true, hp, hn, hc2, hmod, ne_eq,
    not_true_eq_false, and_false, hrec]
  cases found <;> rfl

theorem NewFullFilterBitsReader_zero_lines (blob : List Nat) (p : Nat)
    (h5 : 5 < blob.length) (hp : blob[blob.length - 5]? = some p)
    (hn : bigEndianUint32 (blob.drop (blob.length - 4)) = some 0) :
    NewFullFilterBitsReader blob =
      some { data := blob, numProbes := (p : Int), numLines := 0, log2CacheLineSize := 0 } := by
  have hl0 : ¬ blob.length = 0 := by omega
  have hgt : blob.length > 5 := h5
  simp only [NewFullFilterBitsReader, hl0, if_false, hgt, if_true, hp, hn, gt_iff_lt,
    Nat.lt_irrefl, false_and]

/-- A reader with a zero probe count or a zero line count over more than 5 bytes answers
`true` for every key. -/
theorem KeyMayMatch_degraded (r : FullFilterBitsReader) (h5 : 5 < r.data.length)
    (hz : r.numProbes = 0 ∨ r.numLines = 0) (key : List Nat) :
    r.KeyMayMatch key = some true := by
  have hc : ¬ r.data.length ≤ 5 := by omega
  simp only [FullFilterBitsReader.KeyMayMatch, hc, if_false, hz, if_true]

/-- A blob of `pad + 5` bytes, `pad = 2^32 + 3`: zero data bytes, then the trailer with
probe count 1 and line count 3. Its data region is longer than a `uint32` can hold. -/
theorem NewFullFilterBitsReader_oversized (pad : Nat) (hpad : pad = 2 ^ 32 + 3) :
    (List.replicate pad 0 ++ [1, 0, 0, 0, 3]).length = pad + 5 ∧
    bigEndianUint32 ((List.replicate pad 0 ++ [1, 0, 0, 0, 3]).drop
      ((List.replicate pad 0 ++ [1, 0, 0, 0, 3]).length - 4)) = some 3 ∧
    NewFullFilterBitsReader (List.replicate pad 0 ++ [1, 0, 0, 0, 3]) =
      some { data := List.replicate pad 0 ++ [1, 0, 0, 0, 3], numProbes := 1, numLines := 3,
             log2CacheLineSize := 0 } := by
  have hlen : (List.replicate pad 0 ++ [1, 0, 0, 0, 3]).length = pad + 5 := by simp
  have hp : (List.replicate pad 0 ++ [1, 0, 0, 0, 3])[pad + 5 - 5]? = some 1 := by
    rw [List.getElem?_append_right (by simp)]
    simp
  have hd : (List.replicate pad 0 ++ [1, 0, 0, 0, 3]).drop (pad + 5 - 4) = [0, 0, 0, 3] := by
    have e : pad + 5 - 4 = (List.replicate pad 0).length + 1 := by simp
    rw [e, List.drop_append]
    rfl
  have hn : bigEndianUint32 ((List.replicate pad 0 ++ [1, 0, 0, 0, 3]).drop
      ((List.replicate pad 0 ++ [1, 0, 0, 0, 3]).length - 4)) = some 3 := by
    rw [hlen, hd]; decide
  have hx : u32 (pad + 5 - 5) = 3 := by unfold u32; omega
  refine ⟨hlen, hn, ?_⟩
  have hs := NewFullFilterBitsReader_search (List.replicate pad 0 ++ [1, 0, 0, 0, 3]) 1 3 0 true
    (by rw [hlen]; omega) (by rw [hlen]; exact hp) hn (by decide)
    (by rw [hlen, hx]) (by rw [hlen, hx]; decide)
  simpa using hs

/-- A reader in its probing state answers `false` as soon as the first probed bit of the
key is unset. -/
theorem KeyMayMatch_first_unset (r : FullFilterBitsReader) (key : List Nat) (n b : Nat)
    (h5 : 5 < r.data.length) (hp : r.numProbes.toNat = n + 1) (hl : r.numLines ≠ 0)
    (hoff : u32 ((BloomHash key % r.numLines) <<< r.log2CacheLineSize) ≤ r.data.length)
    (hget : (r.data.drop (u32 ((BloomHash key % r.numLines) <<< r.log2CacheLineSize)))[
      (BloomHash key &&& lineMask (r.log2CacheLineSize + 3)) / 8]? = some b)
    (hbit : b &&& 1 <<< ((BloomHash key &&& lineMask (r.log2CacheLineSize + 3)) % 8) = 0) :
    r.KeyMayMatch key = some false := by
  have hc1 : ¬ r.data.length ≤ 5 := by omega
  have hc2 : ¬ (r.numProbes = 0 ∨ r.numLines = 0) := by
    rintro (h | h)
    · rw [h] at hp; simp at hp
    · exact hl h
  simp only [FullFilterBitsReader.KeyMayMatch, hc1, hc2, if_false, hoff, if_true,
    LegacyLocalityBloomImplHashMayMatch, hp, localityMatchLoop, hget, hbit]

theorem KeyMayMatch_oversized (pad : Nat) (hpad : pad = 2 ^ 32 + 3) :
    FullFilterBitsReader.KeyMayMatch
      { data := List.replicate pad 0 ++ [1, 0, 0, 0, 3], numProbes := 1, numLines := 3,
        log2CacheLineSize := 0 } [] = some false := by
  have hlen : (List.replicate pad 0 ++ [1, 0, 0, 0, 3]).length = pad + 5 := by simp
  have e1 : u32 ((BloomHash [] % 3) <<< 0) = 2 := by decide
  have e2 : (BloomHash [] &&& lineMask (0 + 3)) / 8 = 0 := by decide
  refine KeyMayMatch_first_unset _ [] 0 0 ?_ rfl (by show (3 : Nat) ≠ 0; decide) ?_ ?_ ?_
  · show 5 < (List.replicate pad 0 ++ [1, 0, 0, 0, 3]).length
    omega
  · show u32 ((BloomHash [] % 3) <<< 0) ≤ (List.replicate pad 0 ++ [1, 0, 0, 0, 3]).length
    rw [e1]; omega
  · show (List.drop (u32 ((BloomHash [] % 3) <<< 0))
      (List.replicate pad 0 ++ [1, 0, 0, 0, 3]))[(BloomHash [] &&& lineMask (0 + 3)) / 8]? = some 0
    rw [e1, e2, List.getElem?_drop, List.getElem?_append_left (by simp; omega),
      List.getElem?_replicate]
    simp; omega
  · exact Nat.zero_and _

/-- A legacy filter of more than `0xffffffff` bytes, all equal to 31: the last byte is
above 30 and the check answers `false`. -/
theorem legacy_KeyMayMatch_oversized (p : BloomFilterPolicy) (key : List Nat) (m : Nat)
    (hm : 0xffffffff < m) :
    0xffffffff < (List.replicate m 31).length ∧
    (List.replicate m 31)[(List.replicate m 31).length - 1]? = some 31 ∧
    p.KeyMayMatch key (List.replicate m 31) = some false := by
  have hlen : (List.replicate m 31).length = m := List.length_replicate _ _
  have hc : (List.replicate m 31).length < 2 ∨ (List.replicate m 31).length > 0xffffffff := by
    rw [hlen]; exact Or.inr hm
  refine ⟨by rw [hlen]; exact hm, ?_, ?_⟩
  · rw [hlen, List.getElem?_replicate, if_pos (by omega)]
  · simp only [BloomFilterPolicy.KeyMayMatch, hc, if_true]

/-- C6, counterexample: the one-byte filter `[31]` is shorter than 2 bytes and its last
byte is above 30, yet the legacy check answers `false`; so does a filter of `2^32` bytes
whose last byte is 31. -/
theorem c6_counterexample :
    ([31] : List Nat).length < 2 ∧ ([31] : List Nat)[[31].length - 1]? = some 31 ∧
    (NewBloomFilterPolicy 10).KeyMayMatch [107, 101, 121, 48] [31] = some false ∧
    0xffffffff < (List.replicate (2 ^ 32) 31).length ∧
    (List.replicate (2 ^ 32) 31)[(List.replicate (2 ^ 32) 31).length - 1]? = some 31 ∧
    (NewBloomFilterPolicy 10).KeyMayMatch [107, 101, 121, 48] (List.replicate (2 ^ 32) 31)
      = some false :=
  ⟨by decide, by decide, by decide,
    legacy_KeyMayMatch_oversized (NewBloomFilterPolicy 10) [107, 101, 121, 48] (2 ^ 32)
      (by norm_num)⟩

/-- C6, amended: the legacy check returns `false` whenever `len(filter) < 2` or
`len(filter) > 0xffffffff`, and returns `true` whenever `2 <= len(filter) <= 0xffffffff`
and the last byte of `filter` is greater than 30. -/
theorem c6_legacy_check_guards (p : BloomFilterPolicy) (key filter : List Nat) :
    (filter.length < 2 ∨ 0xffffffff < filter.length → p.KeyMayMatch key filter = some false) ∧
    (∀ last : Nat, 2 ≤ filter.length → filter.length ≤ 0xffffffff →
      filter[filter.length - 1]? = some last → 30 < last →
      p.KeyMayMatch key filter = some true) := by
  constructor
  · intro h
    have hc : filter.length < 2 ∨ filter.length > 0xffffffff := h
    simp only [BloomFilterPolicy.KeyMayMatch, hc, if_true]
  · intro last h2 hmax hlast hgt
    have hc : ¬ (filter.length < 2 ∨ filter.length > 0xffffffff) := by omega
    have hl : ((last : Nat) : Int) > 30 := by omega
    simp only [BloomFilterPolicy.KeyMayMatch, hc, if_false, hlast, hl, if_true]

/-- Witness for C6 (amended): the filters `[31]` and `[0, 31]`. -/
theorem c6_legacy_check_guards_witness :
    (NewBloomFilterPolicy 10).KeyMayMatch [107] [31] = some false ∧
    (NewBloomFilterPolicy 10).KeyMayMatch [107] [0, 31] = some true :=
  ⟨(c6_legacy_check_guards (NewBloomFilterPolicy 10) [107] [31]).1 (Or.inl (by decide)),
    (c6_legacy_check_guards (NewBloomFilterPolicy 10) [107] [0, 31]).2 31 (by decide)
      (by decide) rfl (by decide)⟩

/-- Facts about the blob of `pad = 2^32 + 3` zero bytes followed by the trailer
`[1, 0, 0, 0, 3]`: its stored line count 3 does not divide the length of its data region,
the reader keeps that line count, and it answers `false` for the empty key. -/
theorem oversized_blob_facts (pad : Nat) (hpad : pad = 2 ^ 32 + 3) :
    5 < (List.replicate pad 0 ++ [1, 0, 0, 0, 3]).length ∧
    bigEndianUint32 ((List.replicate pad 0 ++ [1, 0, 0, 0, 3]).drop
      ((List.replicate pad 0 ++ [1, 0, 0, 0, 3]).length - 4)) = some 3 ∧
    ((List.replicate pad 0 ++ [1, 0, 0, 0, 3]).length - 5) % 3 ≠ 0 ∧
    ∃ r, NewFullFilterBitsReader (List.replicate pad 0 ++ [1, 0, 0, 0, 3]) = some r ∧
      r.numLines = 3 ∧ r.KeyMayMatch [] = some false := by
  obtain ⟨h1, h2, h3⟩ := NewFullFilterBitsReader_oversized pad hpad
  refine ⟨by omega, h2, by omega, _, h3, rfl, KeyMayMatch_oversized pad hpad⟩

/-- C7, counterexample: the 5-byte blob `[6, 0, 0, 0, 0]` has length at most 5 and its
reader answers `false`; and for the blob of `2^32 + 3` zero bytes followed by the trailer
`[1, 0, 0, 0, 3]` the line count 3 is non-zero and does not divide `len(blob) - 5`, yet the
reader answers `false` for the empty key. -/
theorem c7_counterexample :
    (([6, 0, 0, 0, 0] : List Nat) ≠ [] ∧ ([6, 0, 0, 0, 0] : List Nat).length ≤ 5 ∧
      ∃ r, NewFullFilterBitsReader [6, 0, 0, 0, 0] = some r ∧
        r.KeyMayMatch [107, 101, 121, 48] = some false) ∧
    (5 < (List.replicate (2 ^ 32 + 3) 0 ++ [1, 0, 0, 0, 3]).length ∧
      bigEndianUint32 ((List.replicate (2 ^ 32 + 3) 0 ++ [1, 0, 0, 0, 3]).drop
        ((List.replicate (2 ^ 32 + 3) 0 ++ [1, 0, 0, 0, 3]).length - 4)) = some 3 ∧
      ((List.replicate (2 ^ 32 + 3) 0 ++ [1, 0, 0, 0, 3]).length - 5) % 3 ≠ 0 ∧
      ∃ r, NewFullFilterBitsReader (List.replicate (2 ^ 32 + 3) 0 ++ [1, 0, 0, 0, 3]) = some r ∧
        r.numLines = 3 ∧ r.KeyMayMatch [] = some false) :=
  ⟨⟨by decide, by decide, _, NewFullFilterBitsReader_short _ (by decide) (by decide), rfl⟩,
    oversized_blob_facts (2 ^ 32 + 3) rfl⟩

/-- C7, amended: for every blob with `5 < len(blob) < 2^32 + 5` whose trailer's line count
is non-zero and does not divide `len(blob) - 5`, the reader returns `true` from
`KeyMayMatch` for every key; for a non-empty blob of length at most 5 it returns `false`
for every key. -/
theorem c7_degradation (blob : List Nat) (h0 : blob ≠ []) :
    (blob.length ≤ 5 →
      ∃ r, NewFullFilterBitsReader blob = some r ∧ ∀ key, r.KeyMayMatch key = some false) ∧
    (∀ n : Nat, 5 < blob.length → blob.length - 5 < 2 ^ 32 →
      bigEndianUint32 (blob.drop (blob.length - 4)) = some n → n ≠ 0 →
      (blob.length - 5) % n ≠ 0 →
      ∃ r, NewFullFilterBitsReader blob = some r ∧ ∀ key, r.KeyMayMatch key = some true) := by
  constructor
  · intro h5
    refine ⟨_, NewFullFilterBitsReader_short blob h0 h5, ?_⟩
    intro key
    simp only [FullFilterBitsReader.KeyMayMatch, h5, if_true]
  · intro n h5 h32 hn hpos hmod
    have hlt : blob.length - 5 < blob.length := by omega
    have hp : blob[blob.length - 5]? = some blob[blob.length - 5] :=
      List.getElem?_eq_getElem hlt
    refine ⟨_, NewFullFilterBitsReader_indivisible blob _ n h5 hp hn hpos
      (by rw [u32_of_lt h32]; exact hmod), ?_⟩
    intro key
    exact KeyMayMatch_degraded _ h5 (Or.inl rfl) key

/-- Witness for C7 (amended): the blobs `[6, 0, 0, 0, 0]` and
`[255, 255, 255, 255, 255, 255, 255, 6, 0, 0, 0, 2]` (7 data bytes, line count 2). -/
theorem c7_degradation_witness :
    (∃ r, NewFullFilterBitsReader [6, 0, 0, 0, 0] = some r ∧
      ∀ key, r.KeyMayMatch key = some false) ∧
    (∃ r, NewFullFilterBitsReader [255, 255, 255, 255, 255, 255, 255, 6, 0, 0, 0, 2] = some r ∧
      ∀ key, r.KeyMayMatch key = some true) :=
  ⟨(c7_degradation [6, 0, 0, 0, 0] (by decide)).1 (by decide),
    (c7_degradation [255, 255, 255, 255, 255, 255, 255, 6, 0, 0, 0, 2] (by decide)).2 2
      (by decide) (by decide) (by decide) (by decide) (by decide)⟩

/-- C8, counterexample: for the blob of `2^32 + 3` zero bytes followed by the trailer
`[1, 0, 0, 0, 3]`, the stored line count 3 is non-zero and `(len(blob) - 5) mod 3 != 0`,
yet the reader keeps `numLines = 3` and answers `false` for the empty key. -/
theorem c8_counterexample :
    5 < (List.replicate (2 ^ 32 + 3) 0 ++ [1, 0, 0, 0, 3]).length ∧
    bigEndianUint32 ((List.replicate (2 ^ 32 + 3) 0 ++ [1, 0, 0, 0, 3]).drop
      ((List.replicate (2 ^ 32 + 3) 0 ++ [1, 0, 0, 0, 3]).length - 4)) = some 3 ∧
    ((List.replicate (2 ^ 32 + 3) 0 ++ [1, 0, 0, 0, 3]).length - 5) % 3 ≠ 0 ∧
    ∃ r, NewFullFilterBitsReader (List.replicate (2 ^ 32 + 3) 0 ++ [1, 0, 0, 0, 3]) = some r ∧
      r.numLines = 3 ∧ r.KeyMayMatch [] = some false :=
  oversized_blob_facts (2 ^ 32 + 3) rfl

/-- C8, amended: for every blob with `5 < len(blob) < 2^32 + 5`, stored probe count `p`
and stored line count `n` (big-endian word in the last 4 bytes): if `n` is non-zero and
either `(len(blob) - 5) mod n != 0` or no exponent `k` has `(len(blob) - 5) >> k = n`, the
reader has `numLines = 0` and `numProbes = 0` and its `KeyMayMatch` returns `true` for every
key; and for every blob longer than 5 bytes the same always-true answer holds when `p` or
`n` is 0. -/
theorem c8_inconsistent_trailer (blob : List Nat) (p n : Nat) (h5 : 5 < blob.length)
    (hp : blob[blob.length - 5]? = some p)
    (hn : bigEndianUint32 (blob.drop (blob.length - 4)) = some n) :
    (blob.length - 5 < 2 ^ 32 → n ≠ 0 →
      ((blob.length - 5) % n ≠ 0 ∨ ¬ ∃ k : Nat, (blob.length - 5) >>> k = n) →
      ∃ r, NewFullFilterBitsReader blob = some r ∧ r.numLines = 0 ∧ r.numProbes = 0 ∧
        ∀ key, r.KeyMayMatch key = some true) ∧
    (p = 0 ∨ n = 0 →
      ∃ r, NewFullFilterBitsReader blob = some r ∧ ∀ key, r.KeyMayMatch key = some true) := by
  constructor
  · intro h32 hpos hbad
    have hx : u32 (blob.length - 5) = blob.length - 5 := u32_of_lt h32
    by_cases hmod : (blob.length - 5) % n = 0
    · obtain ⟨k2, found, hrec, hfound⟩ := recoverLog2_spec (u32 (blob.length - 5)) n 33 0
        (by omega) (by simpa using u32_lt _)
      have hff : found = false := by
        cases found with
        | false => rfl
        | true =>
          exfalso
          rcases hbad with h | h
          · exact h hmod
          · exact h ⟨k2, by rw [← hx]; exact (hfound rfl).1⟩
      subst hff
      have hs := NewFullFilterBitsReader_search blob p n k2 false h5 hp hn hpos
        (by rw [hx]; exact hmod) hrec
      exact ⟨_, hs, rfl, rfl, fun key => KeyMayMatch_degraded _ h5 (Or.inl rfl) key⟩
    · have hs := NewFullFilterBitsReader_indivisible blob p n h5 hp hn hpos
        (by rw [hx]; exact hmod)
      exact ⟨_, hs, rfl, rfl, fun key => KeyMayMatch_degraded _ h5 (Or.inl rfl) key⟩
  · intro hz
    by_cases hn0 : n = 0
    · subst hn0
      exact ⟨_, NewFullFilterBitsReader_zero_lines blob p h5 hp hn,
        fun key => KeyMayMatch_degraded _ h5 (Or.inr rfl) key⟩
    · have hp0 : p = 0 := by
        rcases hz with h | h
        · exact h
        · exact absurd h hn0
      subst hp0
      by_cases hmod : u32 (blob.length - 5) % n = 0
      · obtain ⟨k2, found, hrec, -⟩ := recoverLog2_spec (u32 (blob.length - 5)) n 33 0
          (by omega) (by simpa using u32_lt _)
        have hs := NewFullFilterBitsReader_search blob 0 n k2 found h5 hp hn hn0 hmod hrec
        refine ⟨_, hs, fun key => KeyMayMatch_degraded _ ?_ (Or.inl ?_) key⟩
        · cases found <;> exact h5
        · cases found <;> rfl
      · exact ⟨_, NewFullFilterBitsReader_indivisible blob 0 n h5 hp hn hn0 hmod,
          fun key => KeyMayMatch_degraded _ h5 (Or.inl rfl) key⟩

/-- Witness for C8 (amended): 7 data bytes with line count 2 (indivisible), and 8 data
bytes with probe count 0 and line count 1. -/
theorem c8_inconsistent_trailer_witness :
    (∃ r, NewFullFilterBitsReader [255, 255, 255, 255, 255, 255, 255, 6, 0, 0, 0, 2] = some r ∧
      r.numLines = 0 ∧ r.numProbes = 0 ∧ ∀ key, r.KeyMayMatch key = some true) ∧
    (∃ r, NewFullFilterBitsReader [0, 0, 0, 0, 0, 0, 0, 0, 0, 0, 0, 0, 1] = some r ∧
      ∀ key, r.KeyMayMatch key = some true) :=
  ⟨(c8_inconsistent_trailer [255, 255, 255, 255, 255, 255, 255, 6, 0, 0, 0, 2] 6 2
      (by decide) (by decide) (by decide)).1 (by decide) (by decide) (Or.inl (by decide)),
    (c8_inconsistent_trailer [0, 0, 0, 0, 0, 0, 0, 0, 0, 0, 0, 0, 1] 0 1
      (by decide) (by decide) (by decide)).2 (Or.inl rfl)⟩

/-- C9: short blob matches nothing. For every non-empty blob of at most 5 bytes the reader
exists, `KeyMayMatch` returns `false` for every key, and `KeysMayMatch` returns `false` at
every position. -/
theorem c9_short_blob_matches_nothing (blob : List Nat) (h0 : blob ≠ [])
    (h5 : blob.length ≤ 5) :
    ∃ r, NewFullFilterBitsReader blob = some r ∧
      (∀ key, r.KeyMayMatch key = some false) ∧
      ∀ keys : List (List Nat),
        r.KeysMayMatch keys = some (List.replicate keys.length false) := by
  refine ⟨_, NewFullFilterBitsReader_short blob h0 h5, ?_, ?_⟩
  · intro key
    simp only [FullFilterBitsReader.KeyMayMatch, h5, if_true]
  · intro keys
    simp only [FullFilterBitsReader.KeysMayMatch, h5, if_true]

/-- Witness for C9: the blob `[6, 0, 0, 0, 0]`, which is what `Finish` returns for a builder
with `numProbes = 6` and no key added. -/
theorem c9_short_blob_matches_nothing_witness :
    (FullFilterBitsBuilder.mk 10 6 []).Finish
      = some ([6, 0, 0, 0, 0], FullFilterBitsBuilder.mk 10 6 []) ∧
    ([6, 0, 0, 0, 0] : List Nat) ≠ [] ∧ ([6, 0, 0, 0, 0] : List Nat).length ≤ 5 ∧
    ∃ r, NewFullFilterBitsReader [6, 0, 0, 0, 0] = some r ∧
      (∀ key, r.KeyMayMatch key = some false) ∧
      ∀ keys : List (List Nat), r.KeysMayMatch keys = some (List.replicate keys.length false) :=
  ⟨Finish_nil (FullFilterBitsBuilder.mk 10 6 []) rfl, by decide, by decide,
    c9_short_blob_matches_nothing [6, 0, 0, 0, 0] (by decide) (by decide)⟩

/-! ## The trailer for ten bits per key and at most ten keys -/

theorem foldl_AddKey_length (ks : List (List Nat)) : ∀ b : FullFilterBitsBuilder,
    (ks.foldl FullFilterBitsBuilder.AddKey b).hashEntries.length
      ≤ b.hashEntries.length + ks.length := by
  induction ks with
  | nil => intro b; simp
  | cons k ks ih =>
    intro b
    have hstep : (b.AddKey k).hashEntries.length ≤ b.hashEntries.length + 1 := by
      unfold FullFilterBitsBuilder.AddKey
      simp only []
      split_ifs
      · simp
      · omega
    have := ih (b.AddKey k)
    simp only [List.foldl_cons, List.length_cons]
    omega

theorem CalculateSpace_ten (b : FullFilterBitsBuilder) (hb : b.bitsPerKey = 10) (n : Nat)
    (h1 : 1 ≤ n) (h2 : n ≤ 10) : b.CalculateSpace (n : Int) = (69, 512, 1) := by
  have hn : (n : Int) > 0 := by omega
  have hx : u32OfInt ((n : Int) * 10) = n * 10 := by
    unfold u32OfInt; omega
  simp only [FullFilterBitsBuilder.CalculateSpace, hn, if_true, hb, hx,
    FullFilterBitsBuilder.getTotalBitsForLocality, u32, CacheLineSize]
  have e0 : (n * 10 + 64 * 8 - 1) % 2 ^ 32 = n * 10 + 511 := by omega
  have e1 : (n * 10 + 511) / (64 * 8) = 1 := by omega
  rw [e0, e1]
  rfl

theorem policy_ten_numProbes : (NewBloomFilterPolicy 10).numProbes = 6 := by decide

/-- With 10 bits per key and between 1 and 10 keys the blob has 69 bytes and ends with the
trailer `[6, 0, 0, 0, 1]`. -/
theorem policy_ten_trailer (ks : List (List Nat)) (h1 : ks ≠ []) (h2 : ks.length ≤ 10) :
    ∃ blob b1,
      (ks.foldl FullFilterBitsBuilder.AddKey
        { bitsPerKey := 10, numProbes := (NewBloomFilterPolicy 10).numProbes,
          hashEntries := [] }).Finish = some (blob, b1) ∧
      blob.length = 69 ∧ blob[64]? = some 6 ∧ blob.drop 65 = [0, 0, 0, 1] := by
  have hne : (ks.foldl FullFilterBitsBuilder.AddKey
      { bitsPerKey := 10, numProbes := (NewBloomFilterPolicy 10).numProbes,
        hashEntries := [] }).hashEntries ≠ [] := by
    obtain ⟨k, hk⟩ := List.exists_mem_of_ne_nil ks h1
    exact List.ne_nil_of_mem ((foldl_AddKey_spec ks _).2.2.2 k hk)
  have hlen := foldl_AddKey_length ks
    { bitsPerKey := 10, numProbes := (NewBloomFilterPolicy 10).numProbes, hashEntries := [] }
  have hpos := List.length_pos.2 hne
  obtain ⟨lines, blob, -, -, h3, h4, h5, h6, h7, -, -⟩ := policy_build_read 10 ks _ rfl hne
  have hbpk := (foldl_AddKey_spec ks
    { bitsPerKey := 10, numProbes := (NewBloomFilterPolicy 10).numProbes,
      hashEntries := [] }).1
  rw [CalculateSpace_ten _ hbpk _ hpos (by simpa using Nat.le_trans hlen (by simpa using h2))]
    at h3
  have hl : lines = 1 := by
    have := congrArg (fun t => t.2.2) h3
    exact this.symm
  subst hl
  refine ⟨blob, _, h4, h5, ?_, ?_⟩
  · rw [policy_ten_numProbes] at h6
    exact h6
  · exact h7

/-- C10, counterexample: for `bitsPerKey = 10` and the ten distinct keys "key0" .. "key9"
the trailer decodes to `numLines = 1`, and `1 * 64 >= 10 * 10` is false. -/
theorem c10_counterexample :
    ∃ b blob b1 numLines,
      (NewBloomFilterPolicy 10).GetFilterBitsBuilder = some b ∧
      ([[107, 101, 121, 48], [107, 101, 121, 49], [107, 101, 121, 50], [107, 101, 121, 51],
        [107, 101, 121, 52], [107, 101, 121, 53], [107, 101, 121, 54], [107, 101, 121, 55],
        [107, 101, 121, 56], [107, 101, 121, 57]].foldl FullFilterBitsBuilder.AddKey b).Finish
        = some (blob, b1) ∧
      bigEndianUint32 (blob.drop (blob.length - 4)) = some numLines ∧
      ¬ (numLines * 64 ≥ 10 * 10) := by
  obtain ⟨blob, b1, h1, h2, -, h4⟩ := policy_ten_trailer
    [[107, 101, 121, 48], [107, 101, 121, 49], [107, 101, 121, 50], [107, 101, 121, 51],
     [107, 101, 121, 52], [107, 101, 121, 53], [107, 101, 121, 54], [107, 101, 121, 55],
     [107, 101, 121, 56], [107, 101, 121, 57]] (by simp) (by simp)
  refine ⟨_, blob, b1, 1, GetFilterBitsBuilder_eq 10 (by decide), h1, ?_, by decide⟩
  rw [h2, h4]
  rfl

/-- C10, amended: for a policy with `bitsPerKey = 10` and any 10 keys added to its builder,
the last 5 bytes of the blob returned by `Finish` are `[6, 0, 0, 0, 1]`: they decode to
`numProbes = 6` and to `numLines = 1`, which is odd and satisfies
`numLines * 512 >= 10 * 10` (a line holds 512 bits). -/
theorem c10_trailer_exactness (ks : List (List Nat)) (hlen : ks.length = 10) :
    ∃ b blob b1 numProbes numLines,
      (NewBloomFilterPolicy 10).GetFilterBitsBuilder = some b ∧
      (ks.foldl FullFilterBitsBuilder.AddKey b).Finish = some (blob, b1) ∧
      blob.drop (blob.length - 5) = [6, 0, 0, 0, 1] ∧
      blob[blob.length - 5]? = some numProbes ∧
      bigEndianUint32 (blob.drop (blob.length - 4)) = some numLines ∧
      numProbes = 6 ∧ numLines = 1 ∧ numLines % 2 = 1 ∧ numLines * 512 ≥ 10 * 10 := by
  have hne : ks ≠ [] := by
    intro h
    rw [h] at hlen
    simp at hlen
  obtain ⟨blob, b1, h1, h2, h3, h4⟩ := policy_ten_trailer ks hne (by omega)
  have h64 : 64 < blob.length := by omega
  have hd : blob.drop 64 = [6, 0, 0, 0, 1] := by
    rw [List.drop_eq_getElem_cons h64, h4]
    rw [List.getElem?_eq_getElem h64] at h3
    simp only [Option.some.injEq] at h3
    rw [h3]
  refine ⟨_, blob, b1, 6, 1, GetFilterBitsBuilder_eq 10 (by decide), h1, ?_, ?_, ?_, rfl, rfl,
    by decide, by decide⟩
  · rw [h2]; exact hd
  · rw [h2]; exact h3
  · rw [h2, h4]; rfl

/-- Witness for C10 (amended): the ten keys "key0" .. "key9". -/
theorem c10_trailer_exactness_witness :
    [[107, 101, 121, 48], [107, 101, 121, 49], [107, 101, 121, 50], [107, 101, 121, 51],
      [107, 101, 121, 52], [107, 101, 121, 53], [107, 101, 121, 54], [107, 101, 121, 55],
      [107, 101, 121, 56], [107, 101, 121, 57]].length = 10 ∧
    ∃ b blob b1 numProbes numLines,
      (NewBloomFilterPolicy 10).GetFilterBitsBuilder = some b ∧
      ([[107, 101, 121, 48], [107, 101, 121, 49], [107, 101, 121, 50], [107, 101, 121, 51],
        [107, 101, 121, 52], [107, 101, 121, 53], [107, 101, 121, 54], [107, 101, 121, 55],
        [107, 101, 121, 56], [107, 101, 121, 57]].foldl FullFilterBitsBuilder.AddKey b).Finish
        = some (blob, b1) ∧
      blob.drop (blob.length - 5) = [6, 0, 0, 0, 1] ∧
      blob[blob.length - 5]? = some numProbes ∧
      bigEndianUint32 (blob.drop (blob.length - 4)) = some numLines ∧
      numProbes = 6 ∧ numLines = 1 ∧ numLines % 2 = 1 ∧ numLines * 512 ≥ 10 * 10 :=
  ⟨rfl, c10_trailer_exactness _ rfl⟩

/-! ## Finish on any builder state, and builder reuse -/

theorem Finish_total (b : FullFilterBitsBuilder) :
    ∃ blob, b.Finish = some (blob, { b with hashEntries := [] }) ∧ 5 ≤ blob.length ∧
      blob[blob.length - 5]? = some (byteOfInt b.numProbes) := by
  by_cases hne : b.hashEntries = []
  · exact ⟨_, Finish_nil b hne, by simp, by simp⟩
  · obtain ⟨lines, blob, -, -, -, h4, h5, h6, -, -⟩ := Finish_pos b hne
    refine ⟨blob, h4, by omega, ?_⟩
    have e : blob.length - 5 = lines * 64 := by omega
    rw [e]
    exact h6

/-- C12: probe count stays in range. For every `bitsPerKey >= 1` and every key sequence,
the byte at index `len(blob) - 5` of the blob that `Finish` returns on the policy's builder
is between 1 and 30 and equals the policy's `numProbes`. -/
theorem c12_probe_count_in_range (bitsPerKey : Int) (hb : 1 ≤ bitsPerKey)
    (ks : List (List Nat)) :
    ∃ b blob b1 p,
      (NewBloomFilterPolicy bitsPerKey).GetFilterBitsBuilder = some b ∧
      (ks.foldl FullFilterBitsBuilder.AddKey b).Finish = some (blob, b1) ∧
      blob[blob.length - 5]? = some p ∧ 1 ≤ p ∧ p ≤ 30 ∧
      (p : Int) = (NewBloomFilterPolicy bitsPerKey).numProbes := by
  obtain ⟨blob, h1, -, h3⟩ := Finish_total (ks.foldl FullFilterBitsBuilder.AddKey
    { bitsPerKey := bitsPerKey, numProbes := (NewBloomFilterPolicy bitsPerKey).numProbes,
      hashEntries := [] })
  obtain ⟨hr1, hr2⟩ := NewBloomFilterPolicy_numProbes_range bitsPerKey
  have hnp : (ks.foldl FullFilterBitsBuilder.AddKey
      { bitsPerKey := bitsPerKey, numProbes := (NewBloomFilterPolicy bitsPerKey).numProbes,
        hashEntries := [] }).numProbes = (NewBloomFilterPolicy bitsPerKey).numProbes :=
    (foldl_AddKey_spec ks _).2.1
  rw [hnp] at h3
  have hcast := byteOfInt_of_range (NewBloomFilterPolicy bitsPerKey).numProbes
    (by omega) (by omega)
  exact ⟨_, blob, _, _, GetFilterBitsBuilder_eq bitsPerKey hb, h1, h3, by omega, by omega,
    hcast⟩

/-- Witness for C12: the policy with 10 bits per key and the keys "key0", "key1". -/
theorem c12_probe_count_in_range_witness :
    (1 : Int) ≤ 10 ∧
    ∃ b blob b1 p,
      (NewBloomFilterPolicy 10).GetFilterBitsBuilder = some b ∧
      ([[107, 101, 121, 48], [107, 101, 121, 49]].foldl FullFilterBitsBuilder.AddKey b).Finish
        = some (blob, b1) ∧
      blob[blob.length - 5]? = some p ∧ 1 ≤ p ∧ p ≤ 30 ∧
      (p : Int) = (NewBloomFilterPolicy 10).numProbes :=
  ⟨by decide, c12_probe_count_in_range 10 (by decide)
    [[107, 101, 121, 48], [107, 101, 121, 49]]⟩

/-- C13: builder reuse. For every configuration with `bitsPerKey >= 1` and all key
sequences `ks1`, `ks2`: after adding `ks1` and calling `Finish` the hash list is empty, and
adding `ks2` and calling `Finish` again returns the same blob as a fresh builder of the
same configuration does after adding `ks2`. -/
theorem c13_builder_reuse (bitsPerKey numProbes : Int) (hb : 1 ≤ bitsPerKey)
    (ks1 ks2 : List (List Nat)) :
    ∃ b0 blob1 b1 blob2 b2 b3,
      NewFullFilterBitsBuilder bitsPerKey numProbes = some b0 ∧
      (ks1.foldl FullFilterBitsBuilder.AddKey b0).Finish = some (blob1, b1) ∧
      b1.hashEntries = [] ∧
      (ks2.foldl FullFilterBitsBuilder.AddKey b1).Finish = some (blob2, b2) ∧
      (ks2.foldl FullFilterBitsBuilder.AddKey b0).Finish = some (blob2, b3) := by
  have hnew : NewFullFilterBitsBuilder bitsPerKey numProbes =
      some { bitsPerKey := bitsPerKey, numProbes := numProbes, hashEntries := [] } := by
    have h : ¬ bitsPerKey ≤ 0 := by omega
    simp only [NewFullFilterBitsBuilder, h, if_false]
  obtain ⟨blob1, h1, -, -⟩ := Finish_total (ks1.foldl FullFilterBitsBuilder.AddKey
    { bitsPerKey := bitsPerKey, numProbes := numProbes, hashEntries := [] })
  obtain ⟨hf1, hf2, -, -⟩ := foldl_AddKey_spec ks1
    { bitsPerKey := bitsPerKey, numProbes := numProbes, hashEntries := [] }
  obtain ⟨blob2, h2, -, -⟩ := Finish_total (ks2.foldl FullFilterBitsBuilder.AddKey
    { bitsPerKey := bitsPerKey, numProbes := numProbes, hashEntries := [] })
  rw [hf1, hf2] at h1
  exact ⟨_, blob1, _, blob2, _, _, hnew, h1, rfl, h2, h2⟩

/-- Witness for C13: 10 bits per key, 6 probes, first the key "key0", then "key1". -/
theorem c13_builder_reuse_witness :
    (1 : Int) ≤ 10 ∧
    ∃ b0 blob1 b1 blob2 b2 b3,
      NewFullFilterBitsBuilder 10 6 = some b0 ∧
      ([[107, 101, 121, 48]].foldl FullFilterBitsBuilder.AddKey b0).Finish = some (blob1, b1) ∧
      b1.hashEntries = [] ∧
      ([[107, 101, 121, 49]].foldl FullFilterBitsBuilder.AddKey b1).Finish = some (blob2, b2) ∧
      ([[107, 101, 121, 49]].foldl FullFilterBitsBuilder.AddKey b0).Finish = some (blob2, b3) :=
  ⟨by decide, c13_builder_reuse 10 6 (by decide) [[107, 101, 121, 48]] [[107, 101, 121, 49]]⟩

/-- C14: adjacent-only duplicate suppression. `AddKey(k)` appends `BloomHash(k)` when the
hash list is empty or its last entry differs from `BloomHash(k)`, and otherwise leaves the
builder unchanged; so `AddKey(k)` directly after `AddKey(k)` changes nothing, while for
`BloomHash(a) != BloomHash(c)` the sequence `AddKey(a), AddKey(c), AddKey(a)` on an empty
builder leaves the three entries. -/
theorem c14_adjacent_duplicate_suppression (b : FullFilterBitsBuilder) (k a c : List Nat) :
    (b.hashEntries = [] ∨ b.hashEntries.getLast? ≠ some (BloomHash k) →
      b.AddKey k = { b with hashEntries := b.hashEntries ++ [BloomHash k] }) ∧
    (¬ (b.hashEntries = [] ∨ b.hashEntries.getLast? ≠ some (BloomHash k)) → b.AddKey k = b) ∧
    (b.AddKey k).AddKey k = b.AddKey k ∧
    (BloomHash a ≠ BloomHash c →
      ((({ b with hashEntries := [] }.AddKey a).AddKey c).AddKey a).hashEntries
        = [BloomHash a, BloomHash c, BloomHash a]) := by
  have hcond : ∀ (x : FullFilterBitsBuilder) (y : List Nat),
      (x.hashEntries.length = 0 ∨ some (BloomHash y) ≠ x.hashEntries.getLast?) ↔
      (x.hashEntries = [] ∨ x.hashEntries.getLast? ≠ some (BloomHash y)) := by
    intro x y
    rw [List.length_eq_zero]
    constructor
    · rintro (h | h)
      · exact Or.inl h
      · exact Or.inr (fun e => h e.symm)
    · rintro (h | h)
      · exact Or.inl h
      · exact Or.inr (fun e => h e.symm)
  have happ : ∀ (x : FullFilterBitsBuilder) (y : List Nat),
      (x.hashEntries = [] ∨ x.hashEntries.getLast? ≠ some (BloomHash y)) →
      x.AddKey y = { x with hashEntries := x.hashEntries ++ [BloomHash y] } := by
    intro x y h
    unfold FullFilterBitsBuilder.AddKey
    simp only []
    rw [if_pos ((hcond x y).2 h)]
  have hskip : ∀ (x : FullFilterBitsBuilder) (y : List Nat),
      ¬ (x.hashEntries = [] ∨ x.hashEntries.getLast? ≠ some (BloomHash y)) →
      x.AddKey y = x := by
    intro x y h
    unfold FullFilterBitsBuilder.AddKey
    simp only []
    rw [if_neg (fun hc => h ((hcond x y).1 hc))]
  refine ⟨happ b k, hskip b k, ?_, ?_⟩
  · apply hskip
    intro h
    by_cases hb : b.hashEntries = [] ∨ b.hashEntries.getLast? ≠ some (BloomHash k)
    · rw [happ b k hb] at h
      simp at h
    · rw [hskip b k hb] at h
      exact hb h
  · intro hne
    have e1 : FullFilterBitsBuilder.AddKey { b with hashEntries := [] } a
        = { b with hashEntries := [BloomHash a] } := happ _ a (Or.inl rfl)
    have e2 : FullFilterBitsBuilder.AddKey { b with hashEntries := [BloomHash a] } c
        = { b with hashEntries := [BloomHash a, BloomHash c] } :=
      happ _ c (Or.inr (by simpa using hne))
    have e3 : FullFilterBitsBuilder.AddKey { b with hashEntries := [BloomHash a, BloomHash c] } a
        = { b with hashEntries := [BloomHash a, BloomHash c, BloomHash a] } :=
      happ _ a (Or.inr (by simpa using fun e : BloomHash c = BloomHash a => hne e.symm))
    rw [e1, e2, e3]

/-- Witness for C14: an empty builder, then one whose last entry is the hash of the empty
key, and the keys `[]` and `[0]`, whose hashes differ. -/
theorem c14_adjacent_duplicate_suppression_witness :
    (FullFilterBitsBuilder.mk 10 6 []).AddKey [1]
      = FullFilterBitsBuilder.mk 10 6 [BloomHash [1]] ∧
    (FullFilterBitsBuilder.mk 10 6 [BloomHash [1]]).AddKey [1]
      = FullFilterBitsBuilder.mk 10 6 [BloomHash [1]] ∧
    BloomHash [] ≠ BloomHash [0] ∧
    ((((FullFilterBitsBuilder.mk 10 6 []).AddKey []).AddKey [0]).AddKey []).hashEntries
      = [BloomHash [], BloomHash [0], BloomHash []] :=
  ⟨(c14_adjacent_duplicate_suppression (FullFilterBitsBuilder.mk 10 6 []) [1] [] [0]).1
      (Or.inl rfl),
    (c14_adjacent_duplicate_suppression (FullFilterBitsBuilder.mk 10 6 [BloomHash [1]])
      [1] [] [0]).2.1 (by simp),
    by decide,
    (c14_adjacent_duplicate_suppression (FullFilterBitsBuilder.mk 10 6 []) [1] [] [0]).2.2.2
      (by decide)⟩

/-! ## The legacy no-locality pair -/

theorem noLocalityMatchLoop_mono (totalBits delta : Nat) (D E : List Nat)
    (hle : BitsLe D.length D E) : ∀ (n h : Nat),
    noLocalityMatchLoop totalBits delta D n h = some true →
    noLocalityMatchLoop totalBits delta E n h = some true := by
  intro n
  induction n with
  | zero => intro h _; rfl
  | succ n ih =>
    intro h hD
    simp only [noLocalityMatchLoop] at hD ⊢
    by_cases ht : totalBits = 0
    · rw [if_pos ht] at hD; cases hD
    · rw [if_neg ht] at hD ⊢
      cases hDb : D[h % totalBits / 8]? with
      | none => rw [hDb] at hD; cases hD
      | some b =>
        rw [hDb] at hD
        simp only [] at hD
        obtain ⟨c, hc, hbc⟩ := hle _ (lt_length_of_getElem? hDb) b hDb
        rw [hc]
        simp only []
        by_cases hz : b &&& 1 <<< (h % totalBits % 8) = 0
        · rw [if_pos hz] at hD; cases hD
        · rw [if_neg hz] at hD
          have hcz : c &&& 1 <<< (h % totalBits % 8) ≠ 0 :=
            (bit_test_iff _ _).2 (hbc _ ((bit_test_iff _ _).1 hz))
          rw [if_neg hcz]
          exact ih _ hD

/-- The no-locality add loop on a buffer of at least `ceil(totalBits/8)` bytes: it does not
panic, keeps the length, only adds bits, and the match loop with the same parameters
succeeds afterwards. -/
theorem noLocalityAddLoop_spec (totalBits delta : Nat) (ht : totalBits ≠ 0) :
    ∀ (n h : Nat) (data : List Nat), (totalBits + 7) / 8 ≤ data.length →
    ∃ out, noLocalityAddLoop totalBits delta n h data = some out ∧
      out.length = data.length ∧ BitsLe data.length data out ∧
      noLocalityMatchLoop totalBits delta out n h = some true := by
  intro n
  induction n with
  | zero =>
    intro h data _
    exact ⟨data, rfl, rfl, BitsLe.refl _ _, rfl⟩
  | succ n ih =>
    intro h data hlen
    have hmod : h % totalBits < totalBits := Nat.mod_lt _ (Nat.pos_of_ne_zero ht)
    have hlt : h % totalBits / 8 < data.length := by omega
    simp only [noLocalityAddLoop, ht, if_false, List.getElem?_eq_getElem hlt]
    obtain ⟨out, h1, h2, h3, h4⟩ := ih (u32 (h + delta))
      (data.set (h % totalBits / 8) (data[h % totalBits / 8] ||| 1 <<< (h % totalBits % 8)))
      (by rw [List.length_set]; exact hlen)
    rw [List.length_set] at h2 h3
    have hstep : BitsLe data.length data
        (data.set (h % totalBits / 8)
          (data[h % totalBits / 8] ||| 1 <<< (h % totalBits % 8))) :=
      BitsLe.set_or _ _ _ _ _ (List.getElem?_eq_getElem hlt)
    refine ⟨out, h1, h2, hstep.trans h3, ?_⟩
    obtain ⟨c, hc, hbits⟩ := h3 (h % totalBits / 8) hlt
      (data[h % totalBits / 8] ||| 1 <<< (h % totalBits % 8))
      (List.getElem?_set_eq_of_lt _ hlt)
    have hck : c.testBit (h % totalBits % 8) = true := by
      apply hbits
      simp [Nat.testBit_or, Nat.one_shiftLeft, Nat.testBit_two_pow_self]
    simp only [noLocalityMatchLoop, ht, if_false, hc]
    rw [if_neg ((bit_test_iff _ _).2 hck)]
    exact h4

/-- Further no-locality adds keep the length and only add bits. -/
theorem noLocality_foldlM_spec (totalBits : Nat) (numProbes : Int) (ht : totalBits ≠ 0) :
    ∀ (hs data : List Nat), (totalBits + 7) / 8 ≤ data.length →
    ∃ out, hs.foldlM (fun d x => LegacyNoLocalityBloomImplAddHash x totalBits numProbes d) data
        = some out ∧
      out.length = data.length ∧ BitsLe data.length data out := by
  intro hs
  induction hs with
  | nil =>
    intro data _
    exact ⟨data, rfl, rfl, BitsLe.refl _ _⟩
  | cons x hs ih =>
    intro data hlen
    obtain ⟨d1, h1, h2, h3, -⟩ := noLocalityAddLoop_spec totalBits (probeDelta x) ht
      numProbes.toNat x data hlen
    obtain ⟨out, g1, g2, g3⟩ := ih d1 (by omega)
    refine ⟨out, ?_, by omega, h3.trans (h2 ▸ g3)⟩
    simp only [List.foldlM_cons, LegacyNoLocalityBloomImplAddHash, h1, Option.bind_eq_bind,
      Option.some_bind]
    exact g1

/-- C18: the legacy no-locality pair has no false negatives. For `totalBits >= 1`, any
`numProbes`, a buffer of at least `ceil(totalBits/8)` bytes and a hash `h`: the add of `h`
succeeds, any sequence of further adds with the same `totalBits` and `numProbes` succeeds,
and `LegacyNoLocalityBloomImplHashMayMatch` for `h` on the result returns `true`. -/
theorem c18_no_locality_no_false_negatives (h totalBits : Nat) (numProbes : Int)
    (data others : List Nat) (ht : 1 ≤ totalBits) (hlen : (totalBits + 7) / 8 ≤ data.length) :
    ∃ d1 d2,
      LegacyNoLocalityBloomImplAddHash h totalBits numProbes data = some d1 ∧
      others.foldlM (fun d x => LegacyNoLocalityBloomImplAddHash x totalBits numProbes d) d1
        = some d2 ∧
      LegacyNoLocalityBloomImplHashMayMatch h totalBits numProbes d2 = some true := by
  have ht0 : totalBits ≠ 0 := by omega
  obtain ⟨d1, h1, h2, -, h4⟩ := noLocalityAddLoop_spec totalBits (probeDelta h) ht0
    numProbes.toNat h data hlen
  obtain ⟨d2, g1, -, g3⟩ := noLocality_foldlM_spec totalBits numProbes ht0 others d1 (by omega)
  exact ⟨d1, d2, h1, g1, noLocalityMatchLoop_mono _ _ _ _ g3 _ _ h4⟩

/-- Witness for C18: 16 bits in the buffer `[0, 0]`, 3 probes, hash 5, then hashes 9 and
77. -/
theorem c18_no_locality_no_false_negatives_witness :
    1 ≤ 16 ∧ (16 + 7) / 8 ≤ ([0, 0] : List Nat).length ∧
    ∃ d1 d2,
      LegacyNoLocalityBloomImplAddHash 5 16 3 [0, 0] = some d1 ∧
      [9, 77].foldlM (fun d x => LegacyNoLocalityBloomImplAddHash x 16 3 d) d1 = some d2 ∧
      LegacyNoLocalityBloomImplHashMayMatch 5 16 3 d2 = some true :=
  ⟨by decide, by decide,
    c18_no_locality_no_false_negatives 5 16 3 [0, 0] [9, 77] (by decide) (by decide)⟩

/-- C19: the reader is safe on arbitrary bytes. For every non-empty blob shorter than
`2^32` bytes and every key, `NewFullFilterBitsReader` returns a reader and its `KeyMayMatch`
returns an answer (no modulus by zero, no read outside the blob: either would be `none`);
when the reader has `numLines > 0` then `(len(blob) - 5) >> log2CacheLineSize = numLines`,
and for every value `cur` of the running hash the probed byte index
`(hash mod numLines) << log2CacheLineSize + bitpos/8` is below `len(blob) - 5`. -/
theorem c19_reader_safe (blob : List Nat) (h0 : blob ≠ []) (h32 : blob.length < 2 ^ 32)
    (key : List Nat) :
    ∃ r v, NewFullFilterBitsReader blob = some r ∧ r.data = blob ∧
      r.KeyMayMatch key = some v ∧
      (0 < r.numLines →
        5 < blob.length ∧
        (blob.length - 5) >>> r.log2CacheLineSize = r.numLines ∧
        ∀ cur : Nat,
          u32 ((BloomHash key % r.numLines) <<< r.log2CacheLineSize)
            + (cur &&& lineMask (r.log2CacheLineSize + 3)) / 8 < blob.length - 5) := by
  obtain ⟨r, hr, hdata, hinv⟩ := NewFullFilterBitsReader_spec blob h0
  have hx : u32 (blob.length - 5) = blob.length - 5 := u32_of_lt (by omega)
  have hfacts : 0 < r.numLines →
      5 < blob.length ∧ (blob.length - 5) >>> r.log2CacheLineSize = r.numLines ∧
      ∀ cur : Nat,
        u32 ((BloomHash key % r.numLines) <<< r.log2CacheLineSize)
          + (cur &&& lineMask (r.log2CacheLineSize + 3)) / 8 < blob.length - 5 := by
    intro hpos
    have hn : r.numLines ≠ 0 := by omega
    obtain ⟨h5, hshift⟩ := hinv hn
    have hshift2 : u32 (r.data.length - 5) >>> r.log2CacheLineSize = r.numLines := by
      rw [hdata]; exact hshift
    obtain ⟨hoff, hle, -⟩ := reader_probe_isSome r hn (by rw [hdata]; exact h5) hshift2
      (BloomHash key)
    rw [hdata] at hle
    refine ⟨h5, by rw [← hx]; exact hshift, ?_⟩
    intro cur
    have hm := lineMask_div_lt r.log2CacheLineSize
    have hb : (cur &&& lineMask (r.log2CacheLineSize + 3)) / 8
        ≤ lineMask (r.log2CacheLineSize + 3) / 8 := Nat.div_le_div_right Nat.and_le_right
    rw [hoff]
    omega
  by_cases h5 : r.data.length ≤ 5
  · refine ⟨r, false, hr, hdata, ?_, hfacts⟩
    simp only [FullFilterBitsReader.KeyMayMatch, h5, if_true]
  · by_cases hz : r.numProbes = 0 ∨ r.numLines = 0
    · refine ⟨r, true, hr, hdata, ?_, hfacts⟩
      simp only [FullFilterBitsReader.KeyMayMatch, h5, if_false, hz, if_true]
    · have hn : r.numLines ≠ 0 := fun h => hz (Or.inr h)
      obtain ⟨-, hshift⟩ := hinv hn
      have hshift2 : u32 (r.data.length - 5) >>> r.log2CacheLineSize = r.numLines := by
        rw [hdata]; exact hshift
      obtain ⟨hoff, hle, v, hv⟩ := reader_probe_isSome r hn (by omega) hshift2 (BloomHash key)
      have hc3 : BloomHash key % r.numLines * 2 ^ r.log2CacheLineSize ≤ r.data.length :=
        Nat.le_trans (Nat.le_add_right _ _) (Nat.le_trans hle (Nat.sub_le _ _))
      refine ⟨r, v, hr, hdata, ?_, hfacts⟩
      simp only [FullFilterBitsReader.KeyMayMatch, h5, hz, if_false, hoff, hc3, if_true, hv]

/-- Witness for C19: the blob `[1, 0, 0, 0, 0, 0, 0, 0, 1, 0, 0, 0, 4]` (8 data bytes, one
probe, 4 lines of 2 bytes) and the key "a". -/
theorem c19_reader_safe_witness :
    [1, 0, 0, 0, 0, 0, 0, 0, 1, 0, 0, 0, 4] ≠ ([] : List Nat) ∧
    ([1, 0, 0, 0, 0, 0, 0, 0, 1, 0, 0, 0, 4] : List Nat).length < 2 ^ 32 ∧
    ∃ r v, NewFullFilterBitsReader [1, 0, 0, 0, 0, 0, 0, 0, 1, 0, 0, 0, 4] = some r ∧
      r.data = [1, 0, 0, 0, 0, 0, 0, 0, 1, 0, 0, 0, 4] ∧
      r.KeyMayMatch [97] = some v ∧
      (0 < r.numLines →
        5 < ([1, 0, 0, 0, 0, 0, 0, 0, 1, 0, 0, 0, 4] : List Nat).length ∧
        (([1, 0, 0, 0, 0, 0, 0, 0, 1, 0, 0, 0, 4] : List Nat).length - 5)
          >>> r.log2CacheLineSize = r.numLines ∧
        ∀ cur : Nat,
          u32 ((BloomHash [97] % r.numLines) <<< r.log2CacheLineSize)
            + (cur &&& lineMask (r.log2CacheLineSize + 3)) / 8
            < ([1, 0, 0, 0, 0, 0, 0, 0, 1, 0, 0, 0, 4] : List Nat).length - 5) :=
  ⟨by simp, by simp, c19_reader_safe [1, 0, 0, 0, 0, 0, 0, 0, 1, 0, 0, 0, 4] (by simp)
    (by simp) [97]⟩

/-! ## The legacy check on large filters -/

theorem noLocalityMatchLoop_zero_bits (delta : Nat) (D : List Nat) (n h : Nat) :
    noLocalityMatchLoop 0 delta D (n + 1) h = none := by
  simp only [noLocalityMatchLoop, if_true]

theorem noLocalityMatchLoop_isSome (totalBits delta : Nat) (D : List Nat)
    (ht : totalBits ≠ 0) (hD : (totalBits + 7) / 8 ≤ D.length) : ∀ (n h : Nat),
    ∃ v, noLocalityMatchLoop totalBits delta D n h = some v := by
  intro n
  induction n with
  | zero => intro h; exact ⟨true, rfl⟩
  | succ n ih =>
    intro h
    have hmod : h % totalBits < totalBits := Nat.mod_lt _ (Nat.pos_of_ne_zero ht)
    have hidx : h % totalBits / 8 < D.length := by omega
    simp only [noLocalityMatchLoop, ht, if_false, List.getElem?_eq_getElem hidx]
    split_ifs
    · exact ⟨false, rfl⟩
    · exact ih _

/-- The legacy check completes on every accepted filter for which the 32-bit product
`(len(filter) - 1) * 8` is not 0. -/
theorem legacy_KeyMayMatch_safe (p : BloomFilterPolicy) (key filter : List Nat)
    (h2 : 2 ≤ filter.length) (hmax : filter.length ≤ 0xffffffff)
    (hbits : u32 (u32 (filter.length - 1) * 8) ≠ 0) :
    ∃ v, p.KeyMayMatch key filter = some v := by
  have hc : ¬ (filter.length < 2 ∨ filter.length > 0xffffffff) := by omega
  have hlt : filter.length - 1 < filter.length := by omega
  simp only [BloomFilterPolicy.KeyMayMatch, hc, if_false, List.getElem?_eq_getElem hlt]
  split_ifs
  · exact ⟨true, rfl⟩
  · refine noLocalityMatchLoop_isSome _ _ _ hbits ?_ _ _
    unfold u32
    omega

/-- The legacy check on a filter of `pad + 1` bytes with `pad = 2^29`, last byte 1: the
32-bit bit count is 0 and the first probe takes a modulus by zero. -/
theorem legacy_KeyMayMatch_zero_bits (p : BloomFilterPolicy) (key : List Nat) (pad : Nat)
    (hpad : pad = 2 ^ 29) :
    (List.replicate pad 0 ++ [1]).length = pad + 1 ∧
    u32 (u32 ((List.replicate pad 0 ++ [1]).length - 1) * 8) = 0 ∧
    p.KeyMayMatch key (List.replicate pad 0 ++ [1]) = none := by
  have hlen : (List.replicate pad 0 ++ [1]).length = pad + 1 := by simp
  have hbits : u32 (u32 (pad + 1 - 1) * 8) = 0 := by unfold u32; omega
  have hc : ¬ (pad + 1 < 2 ∨ pad + 1 > 0xffffffff) := by omega
  have hlast : (List.replicate pad 0 ++ [1])[pad + 1 - 1]? = some 1 := by
    rw [List.getElem?_append_right (by simp)]
    simp
  have hgt : ¬ (((1 : Nat) : Int) > 30) := by decide
  refine ⟨hlen, by rw [hlen]; exact hbits, ?_⟩
  simp only [BloomFilterPolicy.KeyMayMatch, hlen, hc, if_false, hbits, hlast, hgt,
    LegacyNoLocalityBloomImplHashMayMatch]
  exact noLocalityMatchLoop_zero_bits _ _ 0 _

/-- C20, the code at the failing input: the filter of `2^29` zero bytes followed by the
byte 1 has an accepted length (`2 <= len <= 0xffffffff`), the code computes
`bits = ((len - 1) * 8) mod 2^32 = 0`, and with its stored probe count 1 the check does not
complete: the first probe evaluates `h % 0`. -/
theorem c20_failing_input :
    2 ≤ (List.replicate (2 ^ 29) 0 ++ [1]).length ∧
    (List.replicate (2 ^ 29) 0 ++ [1]).length ≤ 0xffffffff ∧
    u32 (u32 ((List.replicate (2 ^ 29) 0 ++ [1]).length - 1) * 8) = 0 ∧
    (NewBloomFilterPolicy 10).KeyMayMatch [107, 101, 121, 48]
      (List.replicate (2 ^ 29) 0 ++ [1]) = none := by
  obtain ⟨h1, h2, h3⟩ := legacy_KeyMayMatch_zero_bits (NewBloomFilterPolicy 10)
    [107, 101, 121, 48] (2 ^ 29) rfl
  exact ⟨by rw [h1]; norm_num, by rw [h1]; norm_num, h2, h3⟩

/-! ## The probe count of the policy -/

theorem bitLength_zero (fuel : Nat) : bitLength fuel 0 = 0 := by
  cases fuel <;> simp [bitLength]

theorem bitLength_spec : ∀ (fuel n : Nat), n ≤ fuel → n ≠ 0 →
    1 ≤ bitLength fuel n ∧ 2 ^ (bitLength fuel n - 1) ≤ n := by
  intro fuel
  induction fuel with
  | zero => intro n h1 h2; omega
  | succ fuel ih =>
    intro n h1 h2
    simp only [bitLength, h2, if_false]
    by_cases hhalf : n / 2 = 0
    · rw [hhalf, bitLength_zero]
      simp only [Nat.zero_add, Nat.sub_self, Nat.pow_zero]
      omega
    · obtain ⟨g1, g2⟩ := ih (n / 2) (by omega) hhalf
      refine ⟨by omega, ?_⟩
      have e : bitLength fuel (n / 2) + 1 - 1 = (bitLength fuel (n / 2) - 1) + 1 := by omega
      rw [e, Nat.pow_succ]
      omega

/-- Rounding to 53 significant digits loses less than one part in `2^52`. -/
theorem roundTo53_lower (n : Nat) : n * (2 ^ 52 - 1) ≤ roundTo53 n * 2 ^ 52 := by
  unfold roundTo53
  simp only []
  split_ifs with h1 h2
  · omega
  · have hn : n ≠ 0 := by
      intro h0
      rw [h0, bitLength_zero] at h1
      omega
    obtain ⟨-, g2⟩ := bitLength_spec n n (Nat.le_refl _) hn
    have e : bitLength n n - 1 = (bitLength n n - 53) + 52 := by omega
    rw [e, Nat.pow_add] at g2
    have hq : n >>> (bitLength n n - 53) * 2 ^ (bitLength n n - 53)
        + n % 2 ^ (bitLength n n - 53) = n := by
      rw [Nat.shiftRight_eq_div_pow]
      exact Nat.div_add_mod' _ _
    have hr : n % 2 ^ (bitLength n n - 53) < 2 ^ (bitLength n n - 53) :=
      Nat.mod_lt _ (Nat.two_pow_pos _)
    rw [Nat.add_mul]
    generalize 2 ^ (bitLength n n - 53) = P at g2 hq hr ⊢
    generalize n >>> (bitLength n n - 53) * P = Q at hq ⊢
    generalize n % P = R at hq hr
    omega
  · have hn : n ≠ 0 := by
      intro h0
      rw [h0, bitLength_zero] at h1
      omega
    obtain ⟨-, g2⟩ := bitLength_spec n n (Nat.le_refl _) hn
    have e : bitLength n n - 1 = (bitLength n n - 53) + 52 := by omega
    rw [e, Nat.pow_add] at g2
    have hq : n >>> (bitLength n n - 53) * 2 ^ (bitLength n n - 53)
        + n % 2 ^ (bitLength n n - 53) = n := by
      rw [Nat.shiftRight_eq_div_pow]
      exact Nat.div_add_mod' _ _
    have hr : n % 2 ^ (bitLength n n - 53) < 2 ^ (bitLength n n - 53) :=
      Nat.mod_lt _ (Nat.two_pow_pos _)
    generalize 2 ^ (bitLength n n - 53) = P at g2 hq hr ⊢
    generalize n >>> (bitLength n n - 53) * P = Q at hq ⊢
    generalize n % P = R at hq hr
    omega

/-- From 44 bits per key on the product is at least 30, so the clamp decides. -/
theorem probesOfBitsPerKey_large (bitsPerKey : Int) (h : 44 ≤ bitsPerKey) :
    30 ≤ probesOfBitsPerKey bitsPerKey := by
  unfold probesOfBitsPerKey float69Mantissa
  have hneg : ¬ bitsPerKey < 0 := by omega
  simp only [hneg, if_false]
  have h1 := roundTo53_lower bitsPerKey.natAbs
  have h2 := roundTo53_lower (roundTo53 bitsPerKey.natAbs * 6214967485771284)
  have hB : 44 ≤ bitsPerKey.natAbs := by omega
  generalize roundTo53 (roundTo53 bitsPerKey.natAbs * 6214967485771284) = y at h2 ⊢
  generalize roundTo53 bitsPerKey.natAbs = x at h1 h2
  generalize bitsPerKey.natAbs = B at h1 hB
  have hy : 30 ≤ y / 2 ^ 53 := by omega
  exact_mod_cast hy

theorem probesOfBitsPerKey_nonpos (bitsPerKey : Int) (h : bitsPerKey ≤ 0) :
    probesOfBitsPerKey bitsPerKey ≤ 0 := by
  unfold probesOfBitsPerKey
  simp only []
  by_cases hneg : bitsPerKey < 0
  · rw [if_pos hneg]
    omega
  · have h0 : bitsPerKey = 0 := by omega
    subst h0
    decide

theorem NewBloomFilterPolicy_numProbes_eq (bitsPerKey : Int) :
    (NewBloomFilterPolicy bitsPerKey).numProbes
      = max 1 (min 30 (probesOfBitsPerKey bitsPerKey)) := by
  unfold NewBloomFilterPolicy
  simp only []
  split_ifs <;> omega

/-- C11, counterexample: for `bitsPerKey = 10` the policy has 6 probes, while
`round(69 * 10 / 100) = round(6.9) = 7`. -/
theorem c11_counterexample :
    (NewBloomFilterPolicy 10).numProbes = 6 ∧ specNumProbes 10 = 7 ∧
    (NewBloomFilterPolicy 10).numProbes ≠ specNumProbes 10 := by
  decide

/-- C11, amended: for every integer `bitsPerKey`, `NewBloomFilterPolicy(bitsPerKey)` has
`numProbes = clamp(trunc(bitsPerKey * 0.69), 1, 30)`, where `bitsPerKey * 0.69` is read as
the exact rational `69 * bitsPerKey / 100` and `trunc` drops the fractional part. -/
theorem c11_probe_count_rule (bitsPerKey : Int) :
    (NewBloomFilterPolicy bitsPerKey).numProbes
      = max 1 (min 30 (Int.tdiv (69 * bitsPerKey) 100)) := by
  rw [NewBloomFilterPolicy_numProbes_eq]
  by_cases hlow : bitsPerKey ≤ 0
  · have h1 := probesOfBitsPerKey_nonpos bitsPerKey hlow
    have h2 : Int.tdiv (69 * bitsPerKey) 100 ≤ 0 := by
      have h3 : Int.tdiv (-(69 * bitsPerKey)) 100 = -(Int.tdiv (69 * bitsPerKey) 100) :=
        Int.neg_tdiv _ _
      have h4 : 0 ≤ Int.tdiv (-(69 * bitsPerKey)) 100 :=
        Int.tdiv_nonneg (by omega) (by omega)
      omega
    omega
  · by_cases hhigh : 44 ≤ bitsPerKey
    · have h1 := probesOfBitsPerKey_large bitsPerKey hhigh
      have h2 : Int.tdiv (69 * bitsPerKey) 100 = 69 * bitsPerKey / 100 :=
        Int.tdiv_eq_ediv (by omega) (by omega)
      rw [h2]
      omega
    · have h1 : 1 ≤ bitsPerKey := by omega
      have h2 : bitsPerKey ≤ 43 := by omega
      interval_cases bitsPerKey <;> decide

/-! ## The hash against the recipe of the spec -/

theorem specWord_cons4 (a b c d : Nat) (rest : List Nat) (i : Nat) :
    specWord (a :: b :: c :: d :: rest) (i + 1) = specWord rest i := by
  unfold specWord
  have e0 : 4 * (i + 1) = 4 * i + 1 + 1 + 1 + 1 := by omega
  have e1 : 4 * (i + 1) + 1 = 4 * i + 1 + 1 + 1 + 1 + 1 := by omega
  have e2 : 4 * (i + 1) + 2 = 4 * i + 2 + 1 + 1 + 1 + 1 := by omega
  have e3 : 4 * (i + 1) + 3 = 4 * i + 3 + 1 + 1 + 1 + 1 := by omega
  rw [e3, e2, e1, e0]
  simp only [List.getD_cons_succ]

theorem hashChunks_step (h a b c d : Nat) (rest : List Nat) (hb : b < 256)
    (hc : c < 256) (hd : d < 256) :
    hashChunks h (a :: b :: c :: d :: rest)
      = hashChunks (specMix h (specWord (a :: b :: c :: d :: rest) 0)) rest := by
  have hw : d ||| c <<< 8 ||| b <<< 16 ||| a <<< 24 = specWord (a :: b :: c :: d :: rest) 0 := by
    rw [bigEndian_or_eq_add a b c d hb hc hd]
    simp only [specWord, List.getD_cons_zero, List.getD_cons_succ, Nat.mul_zero, Nat.zero_add]
    omega
  have hm : u32 (u32 (h + specWord (a :: b :: c :: d :: rest) 0) * hashm)
      = (h + specWord (a :: b :: c :: d :: rest) 0) * 0xc6a4a793 % 2 ^ 32 := by
    unfold u32 hashm
    generalize specWord (a :: b :: c :: d :: rest) 0 = w
    omega
  simp only [hashChunks, hw, hm, specMix]

/-- The chunk loop of `Hash` is the fold of `specMix` over the complete chunks and leaves
the bytes after the last complete chunk. -/
theorem hashChunks_spec : ∀ (k : Nat) (data : List Nat) (h : Nat), data.length / 4 = k →
    (∀ x ∈ data, x < 256) →
    hashChunks h data
      = ((List.range k).foldl (fun acc i => specMix acc (specWord data i)) h,
         data.drop (4 * k)) := by
  intro k
  induction k with
  | zero =>
    intro data h hk _
    have hlen : data.length < 4 := by omega
    match data, hlen with
    | [], _ => rfl
    | [_], _ => rfl
    | [_, _], _ => rfl
    | [_, _, _], _ => rfl
    | _ :: _ :: _ :: _ :: _, hl => simp at hl; omega
  | succ k ih =>
    intro data h hk hbytes
    have hlen : 4 ≤ data.length := by omega
    match data, hlen, hk, hbytes with
    | a :: b :: c :: d :: rest, _, hk, hbytes =>
      have hk2 : rest.length / 4 = k := by
        simp only [List.length_cons] at hk
        omega
      rw [hashChunks_step h a b c d rest (hbytes b (by simp)) (hbytes c (by simp))
        (hbytes d (by simp))]
      rw [ih rest _ hk2 (fun x hx => hbytes x (by simp [hx]))]
      rw [List.range_succ_eq_map, List.foldl_cons, List.foldl_map]
      have hd : List.drop (4 * (k + 1)) (a :: b :: c :: d :: rest) = List.drop (4 * k) rest := by
        have e : 4 * (k + 1) = 4 * k + 1 + 1 + 1 + 1 := by omega
        rw [e]
        simp only [List.drop_succ_cons]
      rw [hd]
      simp only [specWord_cons4, Nat.succ_eq_add_one]

theorem getD_drop (l : List Nat) (n i : Nat) : (l.drop n).getD i 0 = l.getD (n + i) 0 := by
  simp only [List.getD_eq_getElem?_getD, List.getElem?_drop]

/-- C15: hash recipe. For every byte sequence `data` and seed, `Hash(data, seed)` is the
value of the recipe of the spec (`specHash`: start from `seed xor (len * M)`, mix every
complete big-endian 4-byte word, add the weighted trailing bytes and do the final
`h * M; h xor (h >> 24)` exactly when a trailing byte exists), and
`BloomHash(key) = Hash(key, 0xbc9f1d34)`. -/
theorem c15_hash_recipe (data : List Nat) (seed : Nat) (hbytes : ∀ x ∈ data, x < 256) :
    Hash data seed = specHash data seed ∧ BloomHash data = Hash data 0xbc9f1d34 ∧
    BloomHash data = specHash data 0xbc9f1d34 := by
  have main : ∀ s : Nat, Hash data s = specHash data s := by
    intro s
    have htl : (data.drop (4 * (data.length / 4))).length = data.length % 4 := by
      rw [List.length_drop]; omega
    have hseed : u32 (u32 data.length * hashm) = data.length * 0xc6a4a793 % 2 ^ 32 := by
      unfold u32 hashm; omega
    have hg0 : data.getD (4 * (data.length / 4)) 0
        = (data.drop (4 * (data.length / 4))).getD 0 0 := by
      rw [getD_drop]; rfl
    unfold Hash specHash
    simp only []
    rw [hashChunks_spec (data.length / 4) data _ rfl hbytes, hseed, hg0]
    simp only [← htl, ← getD_drop]
    have hlt : (data.drop (4 * (data.length / 4))).length < 4 := by omega
    generalize data.drop (4 * (data.length / 4)) = tail at hlt
    generalize List.foldl (fun h i => specMix h (specWord data i))
      (s ^^^ data.length * 3332679571 % 2 ^ 32) (List.range (data.length / 4)) = h1
    generalize tail.getD 0 0 = t0
    generalize tail.getD 1 0 = t1
    generalize tail.getD 2 0 = t2
    have hcases : tail.length = 0 ∨ tail.length = 1 ∨ tail.length = 2 ∨ tail.length = 3 := by
      omega
    rcases hcases with hl | hl | hl | hl
    · simp [hl]
    · have e : u32 (u32 (h1 + t0) * hashm) = (h1 + t0) * 3332679571 % 4294967296 := by
        unfold u32 hashm; omega
      simp [hl, hashr, e]
    · have e : u32 (u32 (u32 (h1 + u32 (t1 <<< 8)) + t0) * hashm)
          = (h1 + t1 * 256 + t0) * 3332679571 % 4294967296 := by
        unfold u32 hashm; rw [Nat.shiftLeft_eq]; omega
      simp [hl, hashr, e]
    · have e : u32 (u32 (u32 (u32 (h1 + u32 (t2 <<< 16)) + u32 (t1 <<< 8)) + t0) * hashm)
          = (h1 + t2 * 65536 + t1 * 256 + t0) * 3332679571 % 4294967296 := by
        unfold u32 hashm; rw [Nat.shiftLeft_eq, Nat.shiftLeft_eq]; omega
      simp [hl, hashr, e]
  exact ⟨main seed, rfl, main _⟩

/-- Witness for C15: the key "key0" with the seed of `BloomHash`. -/
theorem c15_hash_recipe_witness :
    (∀ x ∈ [107, 101, 121, 48], x < 256) ∧
    Hash [107, 101, 121, 48] 0xbc9f1d34 = specHash [107, 101, 121, 48] 0xbc9f1d34 ∧
    BloomHash [107, 101, 121, 48] = Hash [107, 101, 121, 48] 0xbc9f1d34 ∧
    BloomHash [107, 101, 121, 48] = specHash [107, 101, 121, 48] 0xbc9f1d34 :=
  ⟨by decide, c15_hash_recipe [107, 101, 121, 48] 0xbc9f1d34 (by decide)⟩

/-! ## Frame of the locality add -/

/-- The add loop changes no byte outside the probed window `[off, off + mask/8]`. -/
theorem localityAddLoop_frame (off mask delta : Nat) (h32 : off + mask / 8 < 2 ^ 32) :
    ∀ (n h : Nat) (data out : List Nat),
    localityAddLoop off mask delta n h data = some out →
    ∀ i, i < off ∨ off + mask / 8 < i → out[i]? = data[i]? := by
  intro n
  induction n with
  | zero =>
    intro h data out hout i _
    simp only [localityAddLoop, Option.some.injEq] at hout
    rw [hout]
  | succ n ih =>
    intro h data out hout i hi
    have hbp : (h &&& mask) / 8 ≤ mask / 8 := Nat.div_le_div_right Nat.and_le_right
    have hidx : u32 (off + (h &&& mask) / 8) = off + (h &&& mask) / 8 :=
      u32_of_lt (by omega)
    simp only [localityAddLoop, hidx] at hout
    cases hb : data[off + (h &&& mask) / 8]? with
    | none => rw [hb] at hout; cases hout
    | some b =>
      rw [hb] at hout
      simp only [] at hout
      rw [ih _ _ _ hout i hi, List.getElem?_set_ne (by omega)]

/-- With `numLines = 2^26 + 1` and `h = 2^26` the 32-bit offset `(h % numLines) << 6` wraps
to 0, and one probe sets bit 0 of byte 0 of a zero buffer of `pad = numLines * 64` bytes. -/
theorem localityAdd_wraps (pad : Nat) (hpad : pad = (2 ^ 26 + 1) * 64) :
    (2 ^ 26 + 1) * 64 ≤ (List.replicate pad 0).length ∧
    ∃ out, LegacyLocalityBloomImplAddHash (2 ^ 26) (2 ^ 26 + 1) 1 6 (List.replicate pad 0)
        = some out ∧
      out[0]? = some 1 ∧ (List.replicate pad 0)[0]? = some 0 := by
  have hlen : (List.replicate pad 0).length = pad := List.length_replicate _ _
  have h0 : (List.replicate pad 0)[0]? = some 0 := by
    rw [List.getElem?_replicate, if_pos (by omega)]
  have hn : ¬ (2 ^ 26 + 1 = 0) := by decide
  have hoff : u32 ((2 ^ 26 % (2 ^ 26 + 1)) <<< 6) = 0 := by decide
  have hbit : u32 (0 + (2 ^ 26 &&& lineMask (6 + 3)) / 8) = 0 := by decide
  have hval : (0 ||| 1 <<< ((2 ^ 26 &&& lineMask (6 + 3)) % 8)) = 1 := by decide
  refine ⟨by rw [hlen]; omega, (List.replicate pad 0).set 0 1, ?_, ?_, h0⟩
  · have hstep : ∀ (mask delta h : Nat) (data : List Nat) (b : Nat),
        data[u32 (0 + (h &&& mask) / 8)]? = some b →
        localityAddLoop 0 mask delta 1 h data
          = some (data.set (u32 (0 + (h &&& mask) / 8)) (b ||| 1 <<< ((h &&& mask) % 8))) := by
      intro mask delta h data b hb
      simp only [localityAddLoop, hb]
    have hrun := hstep (lineMask (6 + 3)) (probeDelta (2 ^ 26)) (2 ^ 26) (List.replicate pad 0) 0
      (by rw [hbit]; exact h0)
    rw [hbit, hval] at hrun
    simp only [LegacyLocalityBloomImplAddHash, hn, if_false, hoff]
    exact hrun
  · rw [List.getElem?_set_eq_of_lt _ (by rw [hlen]; omega)]

/-- C17, counterexample: for `numLines = 2^26 + 1`, `h = 2^26`, one probe and a zero buffer
of `numLines * 64` bytes, the line of `h` is `[2^32, 2^32 + 64)`, yet the add changes byte 0
from 0 to 1: the 32-bit offset `(h % numLines) << 6` wraps to 0. -/
theorem c17_counterexample :
    1 ≤ 2 ^ 26 + 1 ∧
    (2 ^ 26 + 1) * 64 ≤ (List.replicate ((2 ^ 26 + 1) * 64) 0).length ∧
    0 < 2 ^ 26 % (2 ^ 26 + 1) * 64 ∧
    ∃ out, LegacyLocalityBloomImplAddHash (2 ^ 26) (2 ^ 26 + 1) 1 6
        (List.replicate ((2 ^ 26 + 1) * 64) 0) = some out ∧
      out[0]? = some 1 ∧ (List.replicate ((2 ^ 26 + 1) * 64) 0)[0]? = some 0 :=
  ⟨by decide, (localityAdd_wraps ((2 ^ 26 + 1) * 64) rfl).1, by decide,
    (localityAdd_wraps ((2 ^ 26 + 1) * 64) rfl).2⟩

/-- C17, amended: for every hash `h`, every `numLines >= 1` with `numLines * 64 <= 2^32`,
every `numProbes` and every buffer of at least `numLines * 64` bytes,
`LegacyLocalityBloomImplAddHash(h, numLines, numProbes, 6, buffer)` succeeds, leaves the
buffer length unchanged, leaves unchanged every byte whose index lies outside the line
`[(h mod numLines) * 64, (h mod numLines) * 64 + 64)`, and every byte only gains set
bits. -/
theorem c17_cache_line_confinement (h numLines : Nat) (numProbes : Int) (data : List Nat)
    (hnl : 1 ≤ numLines) (hbound : numLines * 64 ≤ 2 ^ 32)
    (hlen : numLines * 64 ≤ data.length) :
    ∃ out, LegacyLocalityBloomImplAddHash h numLines numProbes 6 data = some out ∧
      out.length = data.length ∧
      (∀ i, i < h % numLines * 64 ∨ h % numLines * 64 + 64 ≤ i → out[i]? = data[i]?) ∧
      BitsLe data.length data out := by
  have hmod : h % numLines < numLines := Nat.mod_lt _ (by omega)
  have hoff : u32 ((h % numLines) <<< 6) = h % numLines * 64 := by
    rw [Nat.shiftLeft_eq]
    exact u32_of_lt (by omega)
  have hm : lineMask (6 + 3) = 511 := lineMask_nine
  have hn0 : ¬ numLines = 0 := by omega
  obtain ⟨out, h1, h2, h3, -⟩ := localityAddLoop_spec (h % numLines * 64) 511 (probeDelta h)
    (by omega) numProbes.toNat h data (by omega)
  have hrun : LegacyLocalityBloomImplAddHash h numLines numProbes 6 data = some out := by
    simp only [LegacyLocalityBloomImplAddHash, hn0, if_false, hoff, hm]
    exact h1
  refine ⟨out, hrun, h2, ?_, h3⟩
  intro i hi
  refine localityAddLoop_frame (h % numLines * 64) 511 (probeDelta h) (by omega) _ _ _ _ h1 i ?_
  omega

/-- Witness for C17 (amended): 2 lines, hash 5 (line 1), 3 probes and a buffer of 128
bytes of 255. -/
theorem c17_cache_line_confinement_witness :
    1 ≤ 2 ∧ 2 * 64 ≤ 2 ^ 32 ∧ 2 * 64 ≤ (List.replicate 128 255).length ∧
    ∃ out, LegacyLocalityBloomImplAddHash 5 2 3 6 (List.replicate 128 255) = some out ∧
      out.length = (List.replicate 128 255).length ∧
      (∀ i, i < 5 % 2 * 64 ∨ 5 % 2 * 64 + 64 ≤ i → out[i]? = (List.replicate 128 255)[i]?) ∧
      BitsLe (List.replicate 128 255).length (List.replicate 128 255) out :=
  ⟨by decide, by decide, by simp,
    c17_cache_line_confinement 5 2 3 (List.replicate 128 255) (by decide) (by decide)
      (by simp)⟩

/-! ## Exactly which bits are set -/

theorem and_511 (x : Nat) : x &&& 511 = x % 512 :=
  Nat.and_pow_two_sub_one_eq_mod x 9

theorem u32_and_511 (x : Nat) : u32 x &&& 511 = x &&& 511 := by
  rw [and_511, and_511]
  unfold u32
  omega

theorem u32_step_and_511 (h delta j : Nat) :
    u32 (u32 (h + delta) + j * delta) &&& 511 = u32 (h + (j + 1) * delta) &&& 511 := by
  rw [and_511, and_511, Nat.add_mul, Nat.one_mul]
  unfold u32
  generalize j * delta = x
  omega

theorem BitSet_set_or (data : List Nat) (idx b k : Nat) (hb : data[idx]? = some b)
    (i t : Nat) :
    BitSet (data.set idx (b ||| 1 <<< k)) i t ↔ BitSet data i t ∨ (i = idx ∧ t = k) := by
  have hlt : idx < data.length := lt_length_of_getElem? hb
  unfold BitSet
  by_cases hi : i = idx
  · subst hi
    rw [List.getElem?_set_eq_of_lt _ hlt, hb]
    constructor
    · rintro ⟨c, hc, hct⟩
      cases hc
      simp only [Nat.testBit_or, Nat.one_shiftLeft, Nat.testBit_two_pow, Bool.or_eq_true,
        decide_eq_true_eq] at hct
      rcases hct with h1 | h1
      · exact Or.inl ⟨b, rfl, h1⟩
      · exact Or.inr ⟨rfl, h1.symm⟩
    · rintro (⟨c, hc, hct⟩ | ⟨-, ht⟩)
      · cases hc
        exact ⟨_, rfl, by simp [Nat.testBit_or, hct]⟩
      · subst ht
        exact ⟨_, rfl, by simp [Nat.testBit_or, Nat.one_shiftLeft, Nat.testBit_two_pow_self]⟩
  · rw [List.getElem?_set_ne (fun e => hi e.symm)]
    constructor
    · intro h; exact Or.inl h
    · rintro (h | ⟨h, -⟩)
      · exact h
      · exact absurd h hi

theorem BitSet_drop (D : List Nat) (off i t : Nat) :
    BitSet (D.drop off) i t ↔ BitSet D (off + i) t := by
  unfold BitSet
  rw [List.getElem?_drop]

theorem not_BitSet_replicate_zero (n i t : Nat) : ¬ BitSet (List.replicate n 0) i t := by
  rintro ⟨b, hb, ht⟩
  rw [List.getElem?_replicate] at hb
  split_ifs at hb
  cases hb
  simp at ht

/-- The add loop with the 9-bit mask sets exactly the probed bits of the line at `off`. -/
theorem localityAddLoop_exact (off delta : Nat) (h32 : off + 63 < 2 ^ 32) :
    ∀ (n h : Nat) (data out : List Nat), off + 63 < data.length →
    localityAddLoop off 511 delta n h data = some out →
    ∀ i t, BitSet out i t ↔
      BitSet data i t ∨
        ∃ j, j < n ∧ i = off + (u32 (h + j * delta) &&& 511) / 8 ∧
          t = (u32 (h + j * delta) &&& 511) % 8 := by
  intro n
  induction n with
  | zero =>
    intro h data out _ hout i t
    simp only [localityAddLoop, Option.some.injEq] at hout
    subst hout
    constructor
    · intro hset; exact Or.inl hset
    · rintro (hset | ⟨j, hj, -⟩)
      · exact hset
      · omega
  | succ n ih =>
    intro h data out hlen hout i t
    have hbp : (h &&& 511) / 8 ≤ 63 := by
      have : h &&& 511 ≤ 511 := Nat.and_le_right
      omega
    have hidx : u32 (off + (h &&& 511) / 8) = off + (h &&& 511) / 8 := u32_of_lt (by omega)
    have hlt : off + (h &&& 511) / 8 < data.length := by omega
    have hb := List.getElem?_eq_getElem hlt
    simp only [localityAddLoop, hidx, hb] at hout
    rw [ih _ _ _ (by rw [List.length_set]; exact hlen) hout i t, BitSet_set_or _ _ _ _ hb]
    have h0 : u32 (h + 0 * delta) &&& 511 = h &&& 511 := by
      rw [Nat.zero_mul, Nat.add_zero, u32_and_511]
    constructor
    · rintro ((hset | ⟨hi, ht⟩) | ⟨j, hj, hi, ht⟩)
      · exact Or.inl hset
      · exact Or.inr ⟨0, by omega, by rw [h0]; exact hi, by rw [h0]; exact ht⟩
      · rw [u32_step_and_511] at hi ht
        exact Or.inr ⟨j + 1, by omega, hi, ht⟩
    · rintro (hset | ⟨j, hj, hi, ht⟩)
      · exact Or.inl (Or.inl hset)
      · cases j with
        | zero =>
          rw [h0] at hi ht
          exact Or.inl (Or.inr ⟨hi, ht⟩)
        | succ j =>
          rw [← u32_step_and_511] at hi ht
          exact Or.inr ⟨j, by omega, hi, ht⟩

/-- The match loop with the 9-bit mask answers `true` exactly when every probed bit is
set. -/
theorem localityMatchLoop_exact (delta : Nat) (D : List Nat) (hD : 63 < D.length) :
    ∀ (n h : Nat), ∃ v, localityMatchLoop 511 delta D n h = some v ∧
      (v = true ↔ ∀ j, j < n →
        BitSet D ((u32 (h + j * delta) &&& 511) / 8) ((u32 (h + j * delta) &&& 511) % 8)) := by
  intro n
  induction n with
  | zero =>
    intro h
    exact ⟨true, rfl, by simp⟩
  | succ n ih =>
    intro h
    have hbp : (h &&& 511) / 8 < D.length := by
      have : h &&& 511 ≤ 511 := Nat.and_le_right
      omega
    have hb := List.getElem?_eq_getElem hbp
    have h0 : u32 (h + 0 * delta) &&& 511 = h &&& 511 := by
      rw [Nat.zero_mul, Nat.add_zero, u32_and_511]
    simp only [localityMatchLoop, hb]
    by_cases hz : D[(h &&& 511) / 8] &&& 1 <<< ((h &&& 511) % 8) = 0
    · rw [if_pos hz]
      refine ⟨false, rfl, ?_⟩
      constructor
      · intro hf; cases hf
      · intro hall
        exfalso
        have hfirst := hall 0 (by omega)
        rw [h0] at hfirst
        obtain ⟨b, hb2, hbt⟩ := hfirst
        rw [hb] at hb2
        cases hb2
        exact (bit_test_iff _ _).2 hbt hz
    · rw [if_neg hz]
      obtain ⟨v, hv, hiff⟩ := ih (u32 (h + delta))
      refine ⟨v, hv, ?_⟩
      rw [hiff]
      constructor
      · intro hall j hj
        cases j with
        | zero =>
          rw [h0]
          exact ⟨_, hb, (bit_test_iff _ _).1 hz⟩
        | succ j =>
          have := hall j (by omega)
          rw [u32_step_and_511] at this
          exact this
      · intro hall j hj
        have := hall (j + 1) (by omega)
        rw [← u32_step_and_511] at this
        exact this

theorem addHashes_exact (b : FullFilterBitsBuilder) (lines totalBits : Nat) (hl : 0 < lines)
    (hl2 : lines ≤ 8388607) : ∀ (hs data out : List Nat), lines * 64 ≤ data.length →
    b.addHashes lines totalBits hs data = some out →
    ∀ i t, BitSet out i t ↔
      BitSet data i t ∨
        ∃ h, h ∈ hs ∧ ∃ j, j < b.numProbes.toNat ∧
          i = h % lines * 64 + probeBit h j / 8 ∧ t = probeBit h j % 8 := by
  intro hs
  induction hs with
  | nil =>
    intro data out _ hout i t
    simp only [FullFilterBitsBuilder.addHashes, Option.some.injEq] at hout
    subst hout
    simp
  | cons h hs ih =>
    intro data out hlen hout i t
    have hmod : h % lines < lines := Nat.mod_lt _ hl
    have hoff : u32 ((h % lines) <<< Log2CacheLineSize) = h % lines * 64 := by
      rw [Log2CacheLineSize, Nat.shiftLeft_eq]
      exact u32_of_lt (by omega)
    have hm : lineMask (Log2CacheLineSize + 3) = 511 := lineMask_nine
    obtain ⟨d1, h1, h2, -, -⟩ := localityAddLoop_spec (h % lines * 64) 511 (probeDelta h)
      (by omega) b.numProbes.toNat h data (by omega)
    simp only [FullFilterBitsBuilder.addHashes, FullFilterBitsBuilder.AddHash,
      LegacyLocalityBloomImplAddHash, Nat.pos_iff_ne_zero.1 hl, if_false, hoff, hm, h1] at hout
    rw [ih d1 out (by omega) hout i t,
      localityAddLoop_exact (h % lines * 64) (probeDelta h) (by omega) _ _ _ _ (by omega) h1 i t]
    constructor
    · rintro ((hset | ⟨j, hj, hi, ht⟩) | ⟨x, hx, j, hj, hi, ht⟩)
      · exact Or.inl hset
      · exact Or.inr ⟨h, List.mem_cons_self _ _, j, hj, hi, ht⟩
      · exact Or.inr ⟨x, List.mem_cons_of_mem _ hx, j, hj, hi, ht⟩
    · rintro (hset | ⟨x, hx, j, hj, hi, ht⟩)
      · exact Or.inl (Or.inl hset)
      · rcases List.mem_cons.1 hx with rfl | hx
        · exact Or.inl (Or.inr ⟨j, hj, hi, ht⟩)
        · exact Or.inr ⟨x, hx, j, hj, hi, ht⟩

/-- The bit-vector region of the blob of a non-empty builder holds exactly the bits probed
by the accumulated hashes. -/
theorem Finish_bits (b : FullFilterBitsBuilder) (hne : b.hashEntries ≠ []) :
    ∃ lines blob,
      b.CalculateSpace b.hashEntries.length = (lines * 64 + 5, lines * 512, lines) ∧
      b.Finish = some (blob, { b with hashEntries := [] }) ∧
      ∀ i t, i < lines * 64 →
        (BitSet blob i t ↔
          ∃ h, h ∈ b.hashEntries ∧ ∃ j, j < b.numProbes.toNat ∧
            i = h % lines * 64 + probeBit h j / 8 ∧ t = probeBit h j % 8) := by
  have hn : (0 : Int) < (b.hashEntries.length : Int) := by
    have := List.length_pos.2 hne
    omega
  obtain ⟨lines, h1, h2, h3⟩ := CalculateSpace_pos b _ hn
  have hl : 0 < lines := by omega
  obtain ⟨d1, g1, g2, -, -⟩ := addHashes_spec b lines (lines * 512) hl h2 b.hashEntries
    (List.replicate (lines * 64 + 5) 0) (by simp)
  rw [List.length_replicate] at g2
  have hdiv : lines * 512 / 8 = lines * 64 := by omega
  have hpos : u32 (lines * 64 + 1) = lines * 64 + 1 := u32_of_lt (by omega)
  refine ⟨lines, writeAt (d1.set (lines * 64) (byteOfInt b.numProbes)) (lines * 64 + 1)
    (bigEndianBytes lines), h3, ?_, ?_⟩
  · have hc1 : 0 < lines * 512 ∧ 0 < lines := ⟨by omega, hl⟩
    have hc2 : lines * 64 < d1.length := by omega
    have hc3 : lines * 64 + 1 + 4 ≤ d1.length := by omega
    simp only [FullFilterBitsBuilder.Finish, FullFilterBitsBuilder.reserveSpace, h3, gt_iff_lt,
      hc1, and_self, if_true, g1, hdiv, hc2, hpos, putUint32At, List.length_set, hc3]
  · intro i t hi
    have hget : (writeAt (d1.set (lines * 64) (byteOfInt b.numProbes)) (lines * 64 + 1)
        (bigEndianBytes lines))[i]? = d1[i]? := by
      rw [writeAt_getElem?_lt _ _ _ _ (by omega), List.getElem?_set_ne (by omega)]
    have hexact := addHashes_exact b lines (lines * 512) hl h2 b.hashEntries _ d1 (by simp) g1 i t
    unfold BitSet at hexact ⊢
    rw [hget, hexact]
    constructor
    · rintro (hz | hp)
      · exact absurd hz (not_BitSet_replicate_zero _ _ _)
      · exact hp
    · intro hp
      exact Or.inr hp

theorem foldl_AddKey_mem_iff (ks : List (List Nat)) : ∀ (b : FullFilterBitsBuilder) (h : Nat),
    h ∈ (ks.foldl FullFilterBitsBuilder.AddKey b).hashEntries →
    h ∈ b.hashEntries ∨ ∃ k, k ∈ ks ∧ BloomHash k = h := by
  induction ks with
  | nil => intro b h hh; exact Or.inl hh
  | cons k ks ih =>
    intro b h hh
    rcases ih (b.AddKey k) h hh with h1 | ⟨x, hx, hxh⟩
    · have hstep : h ∈ b.hashEntries ∨ h = BloomHash k := by
        unfold FullFilterBitsBuilder.AddKey at h1
        simp only [] at h1
        split_ifs at h1
        · simp only [List.mem_append, List.mem_singleton] at h1
          exact h1
        · exact Or.inl h1
      rcases hstep with h2 | h2
      · exact Or.inl h2
      · exact Or.inr ⟨k, List.mem_cons_self _ _, h2.symm⟩
    · exact Or.inr ⟨x, List.mem_cons_of_mem _ hx, hxh⟩

/-- The answer of the reader of a blob built through the policy, in terms of the set bits of
the blob. -/
theorem policy_reader_answer (np : Int) (lines : Nat) (blob : List Nat) (hnp : 1 ≤ np)
    (hl : 0 < lines) (hl2 : lines ≤ 8388607) (hlen : blob.length = lines * 64 + 5)
    (q : List Nat) :
    ∃ v, FullFilterBitsReader.KeyMayMatch
        { data := blob, numProbes := np, numLines := lines, log2CacheLineSize := 6 } q = some v ∧
      (v = true ↔ ∀ j, j < np.toNat →
        BitSet blob (BloomHash q % lines * 64 + probeBit (BloomHash q) j / 8)
          (probeBit (BloomHash q) j % 8)) := by
  have hmod : BloomHash q % lines < lines := Nat.mod_lt _ hl
  have hoff : u32 ((BloomHash q % lines) <<< 6) = BloomHash q % lines * 64 := by
    rw [Nat.shiftLeft_eq]
    exact u32_of_lt (by omega)
  have hc1 : ¬ blob.length ≤ 5 := by omega
  have hc2 : ¬ (np = 0 ∨ lines = 0) := by omega
  have hc3 : BloomHash q % lines * 64 ≤ blob.length := by omega
  have hm : lineMask (6 + 3) = 511 := lineMask_nine
  obtain ⟨v, hv, hiff⟩ := localityMatchLoop_exact (probeDelta (BloomHash q))
    (blob.drop (BloomHash q % lines * 64)) (by rw [List.length_drop]; omega) np.toNat
    (BloomHash q)
  refine ⟨v, ?_, ?_⟩
  · simp only [FullFilterBitsReader.KeyMayMatch, hc1, hc2, if_false, hoff, hc3, if_true,
      LegacyLocalityBloomImplHashMayMatch, hm]
    exact hv
  · rw [hiff]
    constructor
    · intro hall j hj
      have := hall j hj
      rw [BitSet_drop] at this
      exact this
    · intro hall j hj
      rw [BitSet_drop]
      exact hall j hj

theorem probeBit_lt (h j : Nat) : probeBit h j < 512 := by
  unfold probeBit
  rw [and_511]
  omega

/-- The test of the repository: with 10 bits per key and the keys "key0" .. "key9" added,
the reader answers `true` for "key0" .. "key9" and `false` for "key10" .. "key19". -/
theorem TestBloom_passes :
    ((([[107, 101, 121, 48], [107, 101, 121, 49], [107, 101, 121, 50], [107, 101, 121, 51],
        [107, 101, 121, 52], [107, 101, 121, 53], [107, 101, 121, 54], [107, 101, 121, 55],
        [107, 101, 121, 56], [107, 101, 121, 57]].foldl FullFilterBitsBuilder.AddKey
        (FullFilterBitsBuilder.mk 10 (NewBloomFilterPolicy 10).numProbes [])).Finish).bind
      fun res => (NewFullFilterBitsReader res.1).bind fun r =>
        r.KeysMayMatch [[107, 101, 121, 48], [107, 101, 121, 49], [107, 101, 121, 50],
          [107, 101, 121, 51], [107, 101, 121, 52], [107, 101, 121, 53], [107, 101, 121, 54],
          [107, 101, 121, 55], [107, 101, 121, 56], [107, 101, 121, 57],
          [107, 101, 121, 49, 48], [107, 101, 121, 49, 49], [107, 101, 121, 49, 50],
          [107, 101, 121, 49, 51], [107, 101, 121, 49, 52], [107, 101, 121, 49, 53],
          [107, 101, 121, 49, 54], [107, 101, 121, 49, 55], [107, 101, 121, 49, 56],
          [107, 101, 121, 49, 57]])
      = some [true, true, true, true, true, true, true, true, true, true,
              false, false, false, false, false, false, false, false, false, false] := by
  decide

/-- C16: exact membership characterisation. For every `bitsPerKey >= 1` and non-empty key
sequence `ks` built and read through the policy: `KeyMayMatch(q)` returns an answer, and
the answer is `true` exactly when for every `j < numProbes` the bit probed by
`BloomHash(q)` at step `j` is probed by the hash of some added key at some step
`j2 < numProbes` in the same line; and a bit of the bit-vector region of the blob is set
exactly when it is probed by an added key. -/
theorem c16_exact_membership (bitsPerKey : Int) (hb : 1 ≤ bitsPerKey) (ks : List (List Nat))
    (hks : ks ≠ []) :
    ∃ b blob b1 r,
      (NewBloomFilterPolicy bitsPerKey).GetFilterBitsBuilder = some b ∧
      (ks.foldl FullFilterBitsBuilder.AddKey b).Finish = some (blob, b1) ∧
      (NewBloomFilterPolicy bitsPerKey).GetFilterBitsReader blob = some r ∧
      r.numProbes = (NewBloomFilterPolicy bitsPerKey).numProbes ∧
      blob.length = r.numLines * 64 + 5 ∧
      (∀ q, ∃ v, r.KeyMayMatch q = some v ∧
        (v = true ↔ ∀ j, j < r.numProbes.toNat →
          ∃ k, k ∈ ks ∧ ∃ j2, j2 < r.numProbes.toNat ∧
            BloomHash k % r.numLines = BloomHash q % r.numLines ∧
            probeBit (BloomHash k) j2 = probeBit (BloomHash q) j)) ∧
      (∀ i t, i < r.numLines * 64 →
        (BitSet blob i t ↔
          ∃ k, k ∈ ks ∧ ∃ j, j < r.numProbes.toNat ∧
            i = BloomHash k % r.numLines * 64 + probeBit (BloomHash k) j / 8 ∧
            t = probeBit (BloomHash k) j % 8)) := by
  have hne : (ks.foldl FullFilterBitsBuilder.AddKey
      { bitsPerKey := bitsPerKey, numProbes := (NewBloomFilterPolicy bitsPerKey).numProbes,
        hashEntries := [] }).hashEntries ≠ [] := by
    obtain ⟨k, hk⟩ := List.exists_mem_of_ne_nil ks hks
    exact List.ne_nil_of_mem ((foldl_AddKey_spec ks _).2.2.2 k hk)
  obtain ⟨lines, blob, h1, h2, h3, h4, h5, -, -, h8, -⟩ :=
    policy_build_read bitsPerKey ks _ rfl hne
  obtain ⟨lines2, blob2, g3, g4, gbits⟩ := Finish_bits _ hne
  have hl : 0 < lines := by omega
  have hlines : lines2 = lines := by
    rw [h3] at g3
    exact (congrArg (fun t => t.2.2) g3).symm
  have hblob : blob2 = blob := by
    rw [h4] at g4
    exact (congrArg (fun t => t.1) (Option.some.inj g4)).symm
  subst hlines hblob
  have hnp : (ks.foldl FullFilterBitsBuilder.AddKey
      { bitsPerKey := bitsPerKey, numProbes := (NewBloomFilterPolicy bitsPerKey).numProbes,
        hashEntries := [] }).numProbes = (NewBloomFilterPolicy bitsPerKey).numProbes :=
    (foldl_AddKey_spec ks _).2.1
  rw [hnp] at gbits
  obtain ⟨hr1, -⟩ := NewBloomFilterPolicy_numProbes_range bitsPerKey
  have hmemiff : ∀ h : Nat,
      (h ∈ (ks.foldl FullFilterBitsBuilder.AddKey
        { bitsPerKey := bitsPerKey, numProbes := (NewBloomFilterPolicy bitsPerKey).numProbes,
          hashEntries := [] }).hashEntries) ↔ ∃ k, k ∈ ks ∧ BloomHash k = h := by
    intro h
    constructor
    · intro hh
      rcases foldl_AddKey_mem_iff ks _ h hh with h0 | h0
      · cases h0
      · exact h0
    · rintro ⟨k, hk, rfl⟩
      exact (foldl_AddKey_spec ks _).2.2.2 k hk
  have hbits : ∀ i t, i < lines2 * 64 →
      (BitSet blob2 i t ↔
        ∃ k, k ∈ ks ∧ ∃ j, j < (NewBloomFilterPolicy bitsPerKey).numProbes.toNat ∧
          i = BloomHash k % lines2 * 64 + probeBit (BloomHash k) j / 8 ∧
          t = probeBit (BloomHash k) j % 8) := by
    intro i t hi
    rw [gbits i t hi]
    constructor
    · rintro ⟨h, hh, j, hj, e1, e2⟩
      obtain ⟨k, hk, rfl⟩ := (hmemiff h).1 hh
      exact ⟨k, hk, j, hj, e1, e2⟩
    · rintro ⟨k, hk, j, hj, e1, e2⟩
      exact ⟨BloomHash k, (hmemiff _).2 ⟨k, hk, rfl⟩, j, hj, e1, e2⟩
  have hmain : ∀ q, ∃ v, FullFilterBitsReader.KeyMayMatch
        { data := blob2, numProbes := (NewBloomFilterPolicy bitsPerKey).numProbes,
          numLines := lines2, log2CacheLineSize := 6 } q = some v ∧
      (v = true ↔ ∀ j, j < (NewBloomFilterPolicy bitsPerKey).numProbes.toNat →
        ∃ k, k ∈ ks ∧ ∃ j2, j2 < (NewBloomFilterPolicy bitsPerKey).numProbes.toNat ∧
          BloomHash k % lines2 = BloomHash q % lines2 ∧
          probeBit (BloomHash k) j2 = probeBit (BloomHash q) j) := by
    intro q
    obtain ⟨v, hv, hiff⟩ := policy_reader_answer (NewBloomFilterPolicy bitsPerKey).numProbes
      lines2 blob2 hr1 hl h2 h5 q
    refine ⟨v, hv, ?_⟩
    rw [hiff]
    have hmodq : BloomHash q % lines2 < lines2 := Nat.mod_lt _ hl
    constructor
    · intro hall j hj
      have hq := probeBit_lt (BloomHash q) j
      obtain ⟨k, hk, j2, hj2, e1, e2⟩ :=
        (hbits _ _ (by omega)).1 (hall j hj)
      have hk2 := probeBit_lt (BloomHash k) j2
      have hmodk : BloomHash k % lines2 < lines2 := Nat.mod_lt _ hl
      exact ⟨k, hk, j2, hj2, by omega, by omega⟩
    · intro hall j hj
      have hq := probeBit_lt (BloomHash q) j
      obtain ⟨k, hk, j2, hj2, e1, e2⟩ := hall j hj
      exact (hbits _ _ (by omega)).2 ⟨k, hk, j2, hj2, by rw [e1, e2], by rw [e2]⟩
  exact ⟨_, blob2, _, _, GetFilterBitsBuilder_eq bitsPerKey hb, h4, h8, rfl, h5, hmain, hbits⟩

/-- Witness for C16: the policy with 10 bits per key and the test's keys "key0" .. "key9";
the last part is the test itself, where "key10" .. "key19" are answered `false`. -/
theorem c16_exact_membership_witness :
    (1 : Int) ≤ 10 ∧
    [[107, 101, 121, 48], [107, 101, 121, 49], [107, 101, 121, 50], [107, 101, 121, 51],
        [107, 101, 121, 52], [107, 101, 121, 53], [107, 101, 121, 54], [107, 101, 121, 55],
        [107, 101, 121, 56], [107, 101, 121, 57]] ≠ ([] : List (List Nat)) ∧
    (∃ b blob b1 r,
      (NewBloomFilterPolicy 10).GetFilterBitsBuilder = some b ∧
      ([[107, 101, 121, 48], [107, 101, 121, 49], [107, 101, 121, 50], [107, 101, 121, 51],
        [107, 101, 121, 52], [107, 101, 121, 53], [107, 101, 121, 54], [107, 101, 121, 55],
        [107, 101, 121, 56], [107, 101, 121, 57]].foldl FullFilterBitsBuilder.AddKey b).Finish = some (blob, b1) ∧
      (NewBloomFilterPolicy 10).GetFilterBitsReader blob = some r ∧
      r.numProbes = (NewBloomFilterPolicy 10).numProbes ∧
      blob.length = r.numLines * 64 + 5 ∧
      (∀ q, ∃ v, r.KeyMayMatch q = some v ∧
        (v = true ↔ ∀ j, j < r.numProbes.toNat →
          ∃ k, k ∈ [[107, 101, 121, 48], [107, 101, 121, 49], [107, 101, 121, 50], [107, 101, 121, 51],
        [107, 101, 121, 52], [107, 101, 121, 53], [107, 101, 121, 54], [107, 101, 121, 55],
        [107, 101, 121, 56], [107, 101, 121, 57]] ∧
            ∃ j2, j2 < r.numProbes.toNat ∧
            BloomHash k % r.numLines = BloomHash q % r.numLines ∧
            probeBit (BloomHash k) j2 = probeBit (BloomHash q) j)) ∧
      (∀ i t, i < r.numLines * 64 →
        (BitSet blob i t ↔
          ∃ k, k ∈ [[107, 101, 121, 48], [107, 101, 121, 49], [107, 101, 121, 50], [107, 101, 121, 51],
        [107, 101, 121, 52], [107, 101, 121, 53], [107, 101, 121, 54], [107, 101, 121, 55],
        [107, 101, 121, 56], [107, 101, 121, 57]] ∧
            ∃ j, j < r.numProbes.toNat ∧
            i = BloomHash k % r.numLines * 64 + probeBit (BloomHash k) j / 8 ∧
            t = probeBit (BloomHash k) j % 8))) ∧
    (((([[107, 101, 121, 48], [107, 101, 121, 49], [107, 101, 121, 50], [107, 101, 121, 51],
        [107, 101, 121, 52], [107, 101, 121, 53], [107, 101, 121, 54], [107, 101, 121, 55],
        [107, 101, 121, 56], [107, 101, 121, 57]].foldl FullFilterBitsBuilder.AddKey
        (FullFilterBitsBuilder.mk 10 (NewBloomFilterPolicy 10).numProbes [])).Finish).bind
      fun res => (NewFullFilterBitsReader res.1).bind fun r =>
        r.KeysMayMatch [[107, 101, 121, 48], [107, 101, 121, 49], [107, 101, 121, 50],
          [107, 101, 121, 51], [107, 101, 121, 52], [107, 101, 121, 53], [107, 101, 121, 54],
          [107, 101, 121, 55], [107, 101, 121, 56], [107, 101, 121, 57],
          [107, 101, 121, 49, 48], [107, 101, 121, 49, 49], [107, 101, 121, 49, 50],
          [107, 101, 121, 49, 51], [107, 101, 121, 49, 52], [107, 101, 121, 49, 53],
          [107, 101, 121, 49, 54], [107, 101, 121, 49, 55], [107, 101, 121, 49, 56],
          [107, 101, 121, 49, 57]])
      = some [true, true, true, true, true, true, true, true, true, true,
              false, false, false, false, false, false, false, false, false, false]) :=
  ⟨by decide, by simp,
    c16_exact_membership 10 (by decide)
      [[107, 101, 121, 48], [107, 101, 121, 49], [107, 101, 121, 50], [107, 101, 121, 51],
        [107, 101, 121, 52], [107, 101, 121, 53], [107, 101, 121, 54], [107, 101, 121, 55],
        [107, 101, 121, 56], [107, 101, 121, 57]] (by simp),
    TestBloom_passes⟩

end Bloom
